import Mathlib

/-!
Verification of the splay-tree engine of `splay-trees_c`
(`src/splay-trees_int-keys/splay-trees_int-keys.c`).

The C code works on heap nodes with `_father` / `_left_son` / `_right_son`
pointers.  We embed the node graph as a purely functional binary tree: a
node's position is a path of directions from the root, and the parent
pointer is implicit in the path.  The rotation primitives in the source
swap node *contents* (`_spli_swap_info`) so that the climbing node always
reuses the memory slot of the node it replaces; functionally this is
exactly the usual local restructuring of the subtree rooted at the slot
where the rotation happens, which is how the rotations are rendered below.

C `int` arithmetic on keys (the comparator computes `curr->_key - key`)
is modelled by `wrap32`, two's-complement wrap-around of the mathematical
difference.  C `unsigned long` counters are modelled by `Nat` (the code
guards every decrement / increment so no wrap can occur on the paths we
verify; where it could, we state it explicitly).
-/

namespace SplayTreesC

/-- Two's-complement interpretation of an integer as a 32-bit `int`:
the value congruent to `z` modulo `2^32` lying in `[-2^31, 2^31)`.
Models the result of C signed `int` arithmetic (as compiled on the
target platforms, where signed overflow wraps). -/
def wrap32 (z : Int) : Int :=
  (z + 2 ^ 31) % 2 ^ 32 - 2 ^ 31

/-- A direction taken when descending from a node to one of its sons. -/
inductive Dir where
  | L : Dir
  | R : Dir
deriving DecidableEq, Repr

/-- The node graph reachable from a `SplayIntNode *`: either `NULL` or a
node carrying its key (`_key`), its payload (`_data`, the C `void *`,
kept abstract as `α`) and the two son subtrees.  The `_father` pointer of
the C struct is represented implicitly: a node's father is the node one
step up its path from the root. -/
inductive STree (α : Type) where
  | nil : STree α
  | node (l : STree α) (key : Int) (data : α) (r : STree α) : STree α
deriving DecidableEq

namespace STree

variable {α : Type}

/-- Number of nodes reachable from this root. -/
def sizeT : STree α → Nat
  | .nil => 0
  | .node l _ _ r => sizeT l + 1 + sizeT r

/-- In-order list of `(key, payload)` pairs (the order `_spli_inodfs`
emits into its output buffer). -/
def entriesIn : STree α → List (Int × α)
  | .nil => []
  | .node l k v r => entriesIn l ++ (k, v) :: entriesIn r

/-- Pre-order list of `(key, payload)` pairs (emission order of
`_spli_preodfs`). -/
def entriesPre : STree α → List (Int × α)
  | .nil => []
  | .node l k v r => (k, v) :: (entriesPre l ++ entriesPre r)

/-- Post-order list of `(key, payload)` pairs (emission order of
`_spli_postodfs`). -/
def entriesPost : STree α → List (Int × α)
  | .nil => []
  | .node l k v r => entriesPost l ++ entriesPost r ++ [(k, v)]

/-- In-order list of keys. -/
def keysIn (t : STree α) : List Int :=
  (entriesIn t).map Prod.fst

/-- The `(key, payload)` content of the node reached by following `p`
from this root, or `none` when the path walks off the tree. -/
def keyAt : STree α → List Dir → Option (Int × α)
  | .nil, _ => none
  | .node _ k v _, [] => some (k, v)
  | .node l _ _ _, .L :: p => keyAt l p
  | .node _ _ _ r, .R :: p => keyAt r p

/-- The subtree rooted at the node reached by following `p`. -/
def subtreeAt : STree α → List Dir → Option (STree α)
  | t, [] => some t
  | .nil, _ :: _ => none
  | .node l _ _ _, .L :: p => subtreeAt l p
  | .node _ _ _ r, .R :: p => subtreeAt r p

end STree

open STree

/-- `_spli_search_node`: standard BST descent driven by the sign of the
C `int` difference `curr->_key - key`.  A found node is returned as the
path from the root to it (the functional stand-in for the node pointer);
`none` models the `NULL` return. -/
def _spli_search_node {α : Type} : STree α → Int → Option (List Dir)
  | .nil, _ => none
  | .node l key _ r, k =>
    if wrap32 (key - k) > 0 then (_spli_search_node l k).map (Dir.L :: ·)
    else if wrap32 (key - k) < 0 then (_spli_search_node r k).map (Dir.R :: ·)
    else some []

/-- The descent loop of `splay_int_insert`: `comp = curr->_key - new_key`,
equal keys (`comp >= 0`) are kept in the left subtree; the new node is
attached as a leaf where the descent reaches a `NULL` child
(`_spli_insert_left_subtree` / `_spli_insert_right_subtree` at `pred`). -/
def insertBST {α : Type} : STree α → Int → α → STree α
  | .nil, k, v => .node .nil k v .nil
  | .node l key d r, k, v =>
    if 0 ≤ wrap32 (key - k) then .node (insertBST l k v) key d r
    else .node l key d (insertBST r k v)

/-- Path from the root to the freshly attached node of `insertBST`
(the pointer `new_node` that the insert code then splays). -/
def insertPath {α : Type} : STree α → Int → List Dir
  | .nil, _ => []
  | .node l key _ r, k =>
    if 0 ≤ wrap32 (key - k) then Dir.L :: insertPath l k
    else Dir.R :: insertPath r k

/-- One zig: the father of the splayed node is the root of this subtree.
`_spli_right_rotation` (splayed node is a left son) or
`_spli_left_rotation` (right son), with the content swap already folded
into the functional restructuring.  The fallthrough case can only be hit
when the expected son is `NULL`, which the C callers never do. -/
def zig {α : Type} : Dir → STree α → STree α
  | .L, .node (.node a xk xv b) pk pv c => .node a xk xv (.node b pk pv c)
  | .R, .node a pk pv (.node b xk xv c) => .node (.node a pk pv b) xk xv c
  | _, t => t

/-- One zig-zig / zig-zag step: the grandfather of the splayed node is
the root of this subtree; the two directions are (father's direction
from grandfather, node's direction from father).  Mirrors cases 2-5 of
`_spli_splay`: two same-direction rotations at the grandfather slot for
zig-zig, rotation at the father slot then at the grandfather slot for
zig-zag (content swaps folded in as for `zig`). -/
def zig2 {α : Type} : Dir → Dir → STree α → STree α
  | .L, .L, .node (.node (.node a xk xv b) pk pv c) gk gv d =>
      .node a xk xv (.node b pk pv (.node c gk gv d))
  | .L, .R, .node (.node a pk pv (.node b xk xv c)) gk gv d =>
      .node (.node a pk pv b) xk xv (.node c gk gv d)
  | .R, .L, .node a gk gv (.node (.node b xk xv c) pk pv d) =>
      .node (.node a gk gv b) xk xv (.node c pk pv d)
  | .R, .R, .node a gk gv (.node b pk pv (.node c xk xv d)) =>
      .node (.node (.node a gk gv b) pk pv c) xk xv d
  | _, _, t => t

/-- `_spli_splay`: one splay step on the node at path `p`, returning the
updated tree together with the path of the slot the splayed content now
occupies (the C function's return value, to be re-splayed by the caller's
`while (tree->_root != curr)` loop).  A path of length 1 is the
father-is-root zig case; length 2 ends at the grandfather; longer paths
recurse past untouched ancestors. -/
def splayStep {α : Type} : STree α → List Dir → STree α × List Dir
  | t, [] => (t, [])
  | t, [d] => (zig d t, [])
  | t, [d1, d2] => (zig2 d1 d2 t, [])
  | .node l k v r, d :: p1 :: p2 :: ps =>
    match d with
    | .L =>
      let q := splayStep l (p1 :: p2 :: ps)
      (.node q.1 k v r, .L :: q.2)
    | .R =>
      let q := splayStep r (p1 :: p2 :: ps)
      (.node l k v q.1, .R :: q.2)
  | .nil, _ :: _ :: _ :: _ => (.nil, [])

/-- The callers' splay loop `while (tree->_root != curr) curr = _spli_splay(curr);`,
with fuel (every valid step strictly shortens the path, so `p.length`
fuel always suffices). -/
def splayLoop {α : Type} : Nat → STree α → List Dir → STree α × List Dir
  | 0, t, p => (t, p)
  | _ + 1, t, [] => (t, [])
  | n + 1, t, d :: p =>
    let q := splayStep t (d :: p)
    splayLoop n q.1 q.2

/-- Fully splay the node at path `p` to the root. -/
def splayFull {α : Type} (t : STree α) (p : List Dir) : STree α :=
  (splayLoop p.length t p).1

/-- Path to the node `_spli_max_key_son` returns: follow `_right_son`
links until they run out. -/
def maxPathT {α : Type} : STree α → List Dir
  | .nil => []
  | .node _ _ _ .nil => []
  | .node _ _ _ (.node a b c d) => Dir.R :: maxPathT (.node a b c d)

/-- `_spli_join`: join the two subtrees left after the splayed root is
excised.  If either is `NULL` the other becomes the new root; otherwise
the max-key node of the left subtree is fully splayed to its root and the
right subtree is attached as its right son (`_spli_insert_right_subtree`
overwrites the right-son field, which is `NULL` after splaying the
maximum). -/
def _spli_join {α : Type} : STree α → STree α → STree α
  | .nil, r => r
  | l, .nil => l
  | .node la lk lv lr, r =>
    match splayFull (.node la lk lv lr) (maxPathT (.node la lk lv lr)) with
    | .node a k v _ => .node a k v r
    | .nil => .nil

/-- `SplayIntTree`: root pointer, live node counter and capacity
ceiling (both C `unsigned long`). -/
structure SplayIntTree (α : Type) where
  _root : STree α
  nodes_count : Nat
  max_nodes : Nat
deriving DecidableEq

/-- `ULONG_MAX` on the 64-bit targets the library is compiled for. -/
def ULONG_MAX : Nat := 2 ^ 64 - 1

/-- `create_splay_int_tree` (allocation assumed to succeed): empty root,
zero count, capacity `ULONG_MAX`. -/
def create_splay_int_tree (α : Type) : SplayIntTree α :=
  ⟨.nil, 0, ULONG_MAX⟩

/-- Bit test `o & f` on an option word.  Every call site in the source
tests flags only after rejecting non-positive option words, where C `int`
bitwise AND agrees with `Nat` AND of the value. -/
def hasFlag (o : Int) (f : Nat) : Bool :=
  o.toNat &&& f != 0

/-- `splay_int_insert`.  Returns the updated tree and the C return value
(the node counter after insertion, or `0` when the tree is full; the
`tree == NULL` guard is outside the model, and `_spli_create_node` is
assumed to succeed here — see `splay_int_insert_nullNode` for the failing
allocation path). -/
def splay_int_insert {α : Type} (t : SplayIntTree α) (k : Int) (v : α) :
    SplayIntTree α × Nat :=
  if t.nodes_count = t.max_nodes then (t, 0)
  else
    match t._root with
    | .nil =>
      ({ t with _root := .node .nil k v .nil, nodes_count := t.nodes_count + 1 },
       t.nodes_count + 1)
    | .node l key d r =>
      let root := STree.node l key d r
      let t' := splayFull (insertBST root k v) (insertPath root k)
      ({ t with _root := t', nodes_count := t.nodes_count + 1 },
       t.nodes_count + 1)

/-- `splay_int_delete`.  Returns the updated tree and the C return value
(`1` found-and-deleted, `0` not found or bad `opts`).  The
`DELETE_FREE_DATA` handling only frees heap memory and has no functional
effect. -/
def splay_int_delete {α : Type} (t : SplayIntTree α) (k : Int) (opts : Int) :
    SplayIntTree α × Nat :=
  if opts < 0 then (t, 0)
  else
    match _spli_search_node t._root k with
    | none => (t, 0)
    | some p =>
      match splayFull t._root p with
      | .node l _ _ r =>
        ({ t with _root := _spli_join l r, nodes_count := t.nodes_count - 1 }, 1)
      | .nil => (t, 0)

/-- The `void *` a search returns: `NULL`, the node's `_data`, or the
node pointer itself (rendered by its content, the only thing the
embedding can expose of a heap address). -/
inductive SRes (α : Type) where
  | null : SRes α
  | payload (v : α) : SRes α
  | nodeRef (k : Int) (v : α) : SRes α
deriving DecidableEq

/-- `splay_int_search`: sanity check `opts <= 0`, descent, optional full
splay of the found node when `SEARCH_SPLAY` (0x2) is set, then the
`SEARCH_DATA` (0x4) / `SEARCH_NODES` (0x10) result selection. -/
def splay_int_search {α : Type} (t : SplayIntTree α) (k : Int) (opts : Int) :
    SplayIntTree α × SRes α :=
  if opts ≤ 0 then (t, .null)
  else
    match _spli_search_node t._root k with
    | none => (t, .null)
    | some p =>
      let tl : SplayIntTree α × List Dir :=
        if hasFlag opts 2 then ({ t with _root := splayFull t._root p }, [])
        else (t, p)
      match keyAt tl.1._root tl.2 with
      | some (key, v) =>
        (tl.1,
         if hasFlag opts 4 then .payload v
         else if hasFlag opts 16 then .nodeRef key v
         else .null)
      | none => (tl.1, .null)

/-- A traversal's output buffer in each of the three mutually exclusive
modes (`SEARCH_KEYS` / `SEARCH_DATA` / `SEARCH_NODES`). -/
inductive TravOut (α : Type) where
  | keys (l : List Int) : TravOut α
  | data (l : List α) : TravOut α
  | nodes (l : List (Int × α)) : TravOut α
deriving DecidableEq

/-- Mode selection shared by `splay_int_dfs` (its `int_opt` computation)
and the emission branches of `splay_int_bfs`: `SEARCH_DATA` is tested
first, then `SEARCH_KEYS`, then `SEARCH_NODES`; no combination is
rejected beyond "none of the three set". -/
def travMode (opts : Int) : Option Nat :=
  if hasFlag opts 4 then some 4
  else if hasFlag opts 8 then some 8
  else if hasFlag opts 16 then some 16
  else none

/-- Project a visit-ordered entry list through the selected mode. -/
def travProject {α : Type} (mode : Nat) (l : List (Int × α)) : TravOut α :=
  if mode = 4 then .data (l.map Prod.snd)
  else if mode = 8 then .keys (l.map Prod.fst)
  else .nodes l

/-- `splay_int_dfs`.  The recursive emitters (`_spli_preodfs` /
`_spli_inodfs` / `_spli_postodfs`) write the visit-ordered sequence
densely into the result buffer via their walking pointer; the emitted
sequences are `entriesPre` / `entriesIn` / `entriesPost` of the root.
Order bits are tested `DFS_PRE_ORDER` (0x20) first, then `DFS_IN_ORDER`
(0x40), then `DFS_POST_ORDER` (0x80). -/
def splay_int_dfs {α : Type} (t : SplayIntTree α) (typ opts : Int) :
    Option (TravOut α) :=
  if typ ≤ 0 ∨ opts ≤ 0 then none
  else
    match t._root with
    | .nil => none
    | .node l key d r =>
      let root := STree.node l key d r
      match travMode opts with
      | none => none
      | some m =>
        if hasFlag typ 32 then some (travProject m (entriesPre root))
        else if hasFlag typ 64 then some (travProject m (entriesIn root))
        else if hasFlag typ 128 then some (travProject m (entriesPost root))
        else none

/-- Sons of a node in enqueueing order, skipping `NULL` sons, as the BFS
loop appends them to its queue. -/
def bfsSons {α : Type} (leftFirst : Bool) : STree α → List (STree α)
  | .nil => []
  | .node l _ _ r =>
    let keep : STree α → List (STree α) := fun s =>
      match s with
      | .nil => []
      | s => [s]
    if leftFirst then keep l ++ keep r else keep r ++ keep l

/-- The BFS main loop: the output array doubles as the FIFO queue; the
loop runs exactly `nodes_count` iterations, each visiting the next queued
node and appending its non-`NULL` sons. -/
def bfsRun {α : Type} (leftFirst : Bool) : Nat → List (STree α) → List (Int × α)
  | 0, _ => []
  | _ + 1, [] => []
  | n + 1, .nil :: q => bfsRun leftFirst n q
  | n + 1, .node l k v r :: q =>
    (k, v) :: bfsRun leftFirst n (q ++ bfsSons leftFirst (.node l k v r))

/-- `splay_int_bfs`: the up-front sanity check rejects a `NULL`/empty
tree, non-positive flag words, option words with no direction bit
(`BFS_LEFT_FIRST` 0x100 / `BFS_RIGHT_FIRST` 0x200) and no mode bit; the
left-first direction wins when both are set, and the emission mode is
selected with the same `DATA`-then-`KEYS`-then-`NODES` priority as the
DFS (the key-mode buffer shrink `reallocarray` is assumed to succeed). -/
def splay_int_bfs {α : Type} (t : SplayIntTree α) (typ opts : Int) :
    Option (TravOut α) :=
  match t._root with
  | .nil => none
  | .node l key d r =>
    if typ ≤ 0 ∨ opts ≤ 0 ∨ (¬ hasFlag typ 256 ∧ ¬ hasFlag typ 512) ∨
        (¬ hasFlag opts 8 ∧ ¬ hasFlag opts 4 ∧ ¬ hasFlag opts 16) then none
    else
      match travMode opts with
      | none => none
      | some m =>
        some (travProject m
          (bfsRun (hasFlag typ 256) t.nodes_count [STree.node l key d r]))

/-- `splay_int_insert` on the path where `_spli_create_node`'s `malloc`
fails and returns `NULL`.  The source never checks `new_node` for `NULL`:
on an empty tree it stores `NULL` into `_root` and still increments
`nodes_count`; on a non-empty tree the descent attaches `NULL` (a no-op
on the structure) and then the loop `while (tree->_root != curr)` with
`curr == NULL` never terminates, because `_spli_splay(NULL)` returns
`NULL` and `_root` is never `NULL`.  `none` models that divergence. -/
def splay_int_insert_nullNode {α : Type} (t : SplayIntTree α) :
    Option (SplayIntTree α × Nat) :=
  if t.nodes_count = t.max_nodes then some (t, 0)
  else
    match t._root with
    | .nil =>
      some ({ t with _root := .nil, nodes_count := t.nodes_count + 1 },
            t.nodes_count + 1)
    | .node _ _ _ _ => none

/-- Content of the root node, `none` for an empty tree. -/
def rootEntry {α : Type} (t : STree α) : Option (Int × α) :=
  STree.keyAt t []

/-- One mutating call of the public interface, for stating properties of
every tree the API can produce. -/
inductive Op (α : Type) where
  | ins (k : Int) (v : α) : Op α
  | del (k : Int) (opts : Int) : Op α
deriving DecidableEq

/-- Apply one mutating call. -/
def applyOp {α : Type} (t : SplayIntTree α) : Op α → SplayIntTree α
  | .ins k v => (splay_int_insert t k v).1
  | .del k o => (splay_int_delete t k o).1

/-- Run a sequence of mutating calls on a freshly created tree. -/
def runOps {α : Type} (ops : List (Op α)) : SplayIntTree α :=
  ops.foldl applyOp (create_splay_int_tree α)

/-! ### Predicates, invariants and concrete instances used by the claims -/

/-- A path that only ever descends to the right son. -/
def allR (p : List Dir) : Prop := ∀ d ∈ p, d = Dir.R

/-- Values representable as a C `int`. -/
def Int32 (z : Int) : Prop := -2 ^ 31 ≤ z ∧ z < 2 ^ 31

/-- The half-width range in which no comparator subtraction `a - b`
can overflow a C `int`. -/
def SafeRange (z : Int) : Prop := -2 ^ 30 ≤ z ∧ z < 2 ^ 30

/-- All keys stored in the tree are in the overflow-safe half-range. -/
def KeysSafe {α : Type} (t : STree α) : Prop := ∀ x ∈ keysIn t, SafeRange x

/-- All keys stored in the tree are representable C `int` values. -/
def KeysInt32 {α : Type} (t : STree α) : Prop := ∀ x ∈ keysIn t, Int32 x

/-- The non-strict node-wise ordering invariant the operations preserve:
all keys in a node's left subtree are `≤` its key, all keys in its right
subtree are `≥` its key.  (The right-hand side cannot be strict: splaying
a duplicate key moves an equal key into a right subtree.) -/
def NodeSorted {α : Type} : STree α → Prop
  | .nil => True
  | .node l k _ r =>
    (∀ x ∈ keysIn l, x ≤ k) ∧ (∀ x ∈ keysIn r, k ≤ x) ∧
      NodeSorted l ∧ NodeSorted r

/-- Total number of nodes in the queued subtrees. -/
def queueSize {α : Type} : List (STree α) → Nat
  | [] => 0
  | s :: q => sizeT s + queueSize q

/-- Multiset of all entries in the queued subtrees. -/
def queueEntries {α : Type} : List (STree α) → Multiset (Int × α)
  | [] => 0
  | s :: q =>
    ((entriesIn s : List (Int × α)) : Multiset (Int × α)) + queueEntries q

/-- The node counter matches the number of reachable nodes and the
capacity is the `ULONG_MAX` that `create_splay_int_tree` installed. -/
def TreeInv {α : Type} (t : SplayIntTree α) : Prop :=
  t.nodes_count = sizeT t._root ∧ t.max_nodes = ULONG_MAX

/-- The ordering/range invariant: the tree is node-wise sorted and all
its keys lie in the overflow-safe half-range. -/
def SortedSafe {α : Type} (t : SplayIntTree α) : Prop :=
  NodeSorted t._root ∧ KeysSafe t._root

/-- Key ranges of the arguments of one mutating call. -/
def OpSafe {α : Type} : Op α → Prop
  | .ins k _ => SafeRange k
  | .del _ _ => True

/-! ### Concrete trees built through the public interface -/

/-- Insert `INT_MAX`, then `-2`: the comparator `INT_MAX - (-2)` wraps
to a negative value, so `-2` is attached as the right son of `INT_MAX`
and then zigged to the root. -/
def exTreeOverflow : SplayIntTree Nat :=
  runOps [Op.ins 2147483647 0, Op.ins (-2) 0]

/-- Insert key `5` twice: the duplicate goes into the left subtree and
the zig rotation of the splay then moves the older `5` into the right
subtree of the new root `5`. -/
def exTreeDup : SplayIntTree Nat :=
  runOps [Op.ins 5 0, Op.ins 5 1]

/-- Insert `0`, `3 * 2^29` and `-3 * 2^29`: each pairwise comparison
wraps so the three keys sit on a comparison cycle, and after the last
splay the key `0` ends up in the left subtree of a negative root, where
the descent for `0` can no longer find it. -/
def exTreeWrap : SplayIntTree Nat :=
  runOps [Op.ins 0 0, Op.ins 1610612736 1, Op.ins (-1610612736) 2]

/-- A one-node tree holding key `1` with payload `7`. -/
def exTreeOne : SplayIntTree Nat :=
  (splay_int_insert (create_splay_int_tree Nat) 1 7).1

/-- A two-node sorted tree used to witness hypotheses. -/
def exTreeTwo : SplayIntTree Nat :=
  runOps [Op.ins 5 0, Op.ins 3 1]

/-- The binary-search-tree invariant exactly as the specification words
it: every key in a node's left subtree is `≤` its key and every key in
its right subtree is strictly greater. -/
def specStrictBST {α : Type} : STree α → Bool
  | .nil => true
  | .node l k _ r =>
    (keysIn l).all (fun x => decide (x ≤ k)) &&
      ((keysIn r).all (fun x => decide (k < x)) &&
        (specStrictBST l && specStrictBST r))

/-- Number of elements in a traversal output buffer. -/
def travLen {α : Type} : TravOut α → Nat
  | .keys l => l.length
  | .data l => l.length
  | .nodes l => l.length

/-- The output buffer accounts for exactly the tree's current nodes:
its key multiset (key and node modes) or payload multiset (data mode)
is the tree's. -/
def travOK {α : Type} (root : STree α) : TravOut α → Prop
  | .keys l => (l : Multiset Int) = ((keysIn root : List Int) : Multiset Int)
  | .data l =>
    (l : Multiset α) = (((entriesIn root).map Prod.snd : List α) : Multiset α)
  | .nodes l =>
    (l : Multiset (Int × α)) =
      ((entriesIn root : List (Int × α)) : Multiset (Int × α))

/-- One mutating call together with bookkeeping of how many inserts and
deletes reported success (insert: non-zero return; delete: return 1). -/
def opStep {α : Type} : SplayIntTree α × Nat × Nat → Op α →
    SplayIntTree α × Nat × Nat
  | (t, ni, nd), .ins k v =>
    ((splay_int_insert t k v).1,
     (if (splay_int_insert t k v).2 = 0 then ni else ni + 1), nd)
  | (t, ni, nd), .del k o =>
    ((splay_int_delete t k o).1, ni, nd + (splay_int_delete t k o).2)

/-- Run a sequence of mutating calls from a fresh tree, counting the
successful inserts and deletes. -/
def runCounts {α : Type} (ops : List (Op α)) : SplayIntTree α × Nat × Nat :=
  ops.foldl opStep (create_splay_int_tree α, 0, 0)

/-! ### Decidability instances for evaluating the invariants -/

instance SafeRange.dec (z : Int) : Decidable (SafeRange z) := by
  unfold SafeRange
  infer_instance

instance Int32.dec (z : Int) : Decidable (Int32 z) := by
  unfold Int32
  infer_instance

instance OpSafe.dec {α : Type} (op : Op α) : Decidable (OpSafe op) := by
  cases op <;> unfold OpSafe <;> infer_instance

instance KeysSafe.dec {α : Type} (t : STree α) : Decidable (KeysSafe t) := by
  unfold KeysSafe
  exact List.decidableBAll _ _

instance NodeSorted.dec {α : Type} : (t : STree α) → Decidable (NodeSorted t)
  | .nil => by unfold NodeSorted; infer_instance
  | .node l k v r => by
    have hl := NodeSorted.dec l
    have hr := NodeSorted.dec r
    unfold NodeSorted
    infer_instance

instance SortedSafe.dec {α : Type} (t : SplayIntTree α) :
    Decidable (SortedSafe t) := by
  unfold SortedSafe
  infer_instance

/-! ### Bundled conclusions of the longer claims -/

/-- What deletion guarantees on a sorted, overflow-safe tree: a present
key is deleted (return 1) removing exactly one occurrence from the entry
multiset, with the new root given by the join rule applied to the two
detached subtrees of the splayed-to-root target; an absent key is a
no-op returning 0. -/
def DeleteSpec {α : Type} (t : SplayIntTree α) (k opts : Int) : Prop :=
  (k ∈ keysIn t._root →
    (splay_int_delete t k opts).2 = 1 ∧
    (∃ v : α,
      (k, v) ::ₘ ((entriesIn ((splay_int_delete t k opts).1)._root :
          List (Int × α)) : Multiset (Int × α)) =
        ((entriesIn t._root : List (Int × α)) : Multiset (Int × α))) ∧
    (∃ (p : List Dir) (l r : STree α) (v : α),
      _spli_search_node t._root k = some p ∧
      splayFull t._root p = .node l k v r ∧
      (splay_int_delete t k opts).1._root = _spli_join l r ∧
      (l = .nil → (splay_int_delete t k opts).1._root = r) ∧
      (r = .nil → (splay_int_delete t k opts).1._root = l) ∧
      (l ≠ .nil → r ≠ .nil →
        ∃ (a : STree α) (mk : Int) (mv : α),
          (splay_int_delete t k opts).1._root = .node a mk mv r ∧
          mk ∈ keysIn l ∧ ∀ x ∈ keysIn l, x ≤ mk))) ∧
  (k ∉ keysIn t._root → splay_int_delete t k opts = (t, 0))

/-- What every traversal guarantees on a non-empty tree with a correct
node counter: for the requested depth-first order and every breadth-first
direction, in every single-mode output mode, the returned buffer exists,
has exactly `nodes_count` elements, and carries the tree's multiset of
keys / payloads / nodes; and on an empty tree the result is `none`. -/
def TraversalSpec {α : Type} (t : SplayIntTree α) (typ opts : Int) : Prop :=
  (∃ out, splay_int_dfs t typ opts = some out ∧
    travLen out = t.nodes_count ∧ travOK t._root out) ∧
  (∀ btyp : Int, btyp = 256 ∨ btyp = 512 →
    ∃ out, splay_int_bfs t btyp opts = some out ∧
      travLen out = t.nodes_count ∧ travOK t._root out) ∧
  (∀ u : SplayIntTree α, u._root = .nil →
    splay_int_dfs u typ opts = none ∧ splay_int_bfs u typ opts = none)

/-- What search-for-data guarantees on a sorted, overflow-safe tree:
a stored key yields its bound payload, an absent key yields the `NULL`
indicator with the tree untouched. -/
def SearchSpec {α : Type} (t : SplayIntTree α) (k : Int) : Prop :=
  (k ∈ keysIn t._root →
    ∃ v, (splay_int_search t k 4).2 = SRes.payload v ∧
      (k, v) ∈ entriesIn t._root) ∧
  (k ∉ keysIn t._root → splay_int_search t k 4 = (t, SRes.null))

/-- How the mutually exclusive mode bits are actually resolved: with no
mode bit set the traversals return `NULL` and a search returns the
`NULL` sentinel (a search with the splay bit may still splay a found
node despite that return value); when several bits are set, a fixed
priority picks one — `SEARCH_DATA` over `SEARCH_KEYS` over
`SEARCH_NODES`, `DFS_PRE_ORDER` over `DFS_IN_ORDER` over
`DFS_POST_ORDER`, `BFS_LEFT_FIRST` over `BFS_RIGHT_FIRST` — and the
call behaves exactly as if only the winning bit (for a search, together
with its `SEARCH_SPLAY` bit) had been passed. -/
def ModeBitsSpec {α : Type} (t : SplayIntTree α) (typ opts k : Int) : Prop :=
  (hasFlag opts 4 = false → hasFlag opts 8 = false → hasFlag opts 16 = false →
    splay_int_dfs t typ opts = none ∧ splay_int_bfs t typ opts = none ∧
    (splay_int_search t k opts).2 = SRes.null) ∧
  (hasFlag opts 4 = true →
    splay_int_dfs t typ opts = splay_int_dfs t typ 4 ∧
    splay_int_bfs t typ opts = splay_int_bfs t typ 4 ∧
    splay_int_search t k opts =
      splay_int_search t k (if hasFlag opts 2 then 6 else 4)) ∧
  (hasFlag opts 4 = false → hasFlag opts 8 = true →
    splay_int_dfs t typ opts = splay_int_dfs t typ 8 ∧
    splay_int_bfs t typ opts = splay_int_bfs t typ 8) ∧
  (hasFlag opts 4 = false → hasFlag opts 16 = true →
    splay_int_search t k opts =
      splay_int_search t k (if hasFlag opts 2 then 18 else 16)) ∧
  (hasFlag typ 32 = true →
    splay_int_dfs t typ opts = splay_int_dfs t 32 opts) ∧
  (hasFlag typ 32 = false → hasFlag typ 64 = true →
    splay_int_dfs t typ opts = splay_int_dfs t 64 opts) ∧
  (hasFlag typ 32 = false → hasFlag typ 64 = false → hasFlag typ 128 = true →
    splay_int_dfs t typ opts = splay_int_dfs t 128 opts) ∧
  (hasFlag typ 256 = true →
    splay_int_bfs t typ opts = splay_int_bfs t 256 opts) ∧
  (hasFlag typ 256 = false → hasFlag typ 512 = true →
    splay_int_bfs t typ opts = splay_int_bfs t 512 opts)

/-! ### Basic facts about traversals and sizes -/

namespace STree

variable {α : Type}

theorem entriesIn_length (t : STree α) : (entriesIn t).length = sizeT t := by
  induction t with
  | nil => rfl
  | node l k v r ihl ihr => simp [entriesIn, sizeT, ihl, ihr]; omega

theorem keysIn_length (t : STree α) : (keysIn t).length = sizeT t := by
  simp [keysIn, entriesIn_length]

theorem keysIn_nil : keysIn (.nil : STree α) = [] := rfl

theorem keysIn_node (l : STree α) (k : Int) (v : α) (r : STree α) :
    keysIn (.node l k v r) = keysIn l ++ k :: keysIn r := by
  simp [keysIn, entriesIn]

theorem entriesPre_perm (t : STree α) : (entriesPre t).Perm (entriesIn t) := by
  induction t with
  | nil => exact List.Perm.refl _
  | node l k v r ihl ihr =>
    show ((k, v) :: (entriesPre l ++ entriesPre r)).Perm
      (entriesIn l ++ (k, v) :: entriesIn r)
    exact (List.Perm.cons _ (List.Perm.append ihl ihr)).trans List.perm_middle.symm

theorem entriesPost_perm (t : STree α) : (entriesPost t).Perm (entriesIn t) := by
  induction t with
  | nil => exact List.Perm.refl _
  | node l k v r ihl ihr =>
    show (entriesPost l ++ entriesPost r ++ [(k, v)]).Perm
      (entriesIn l ++ (k, v) :: entriesIn r)
    exact List.perm_append_comm.trans
      ((List.Perm.cons _ (List.Perm.append ihl ihr)).trans List.perm_middle.symm)

theorem entriesPre_length (t : STree α) : (entriesPre t).length = sizeT t := by
  rw [(entriesPre_perm t).length_eq, entriesIn_length]

theorem entriesPost_length (t : STree α) : (entriesPost t).length = sizeT t := by
  rw [(entriesPost_perm t).length_eq, entriesIn_length]

theorem keyAt_mem (t : STree α) (p : List Dir) (e : Int × α)
    (h : keyAt t p = some e) : e ∈ entriesIn t := by
  induction t generalizing p with
  | nil => simp [keyAt] at h
  | node l k v r ihl ihr =>
    match p with
    | [] =>
      simp [keyAt] at h
      simp [entriesIn, ← h]
    | .L :: p =>
      simp only [keyAt] at h
      have := ihl p h
      simp [entriesIn, this]
    | .R :: p =>
      simp only [keyAt] at h
      have := ihr p h
      simp [entriesIn, this]

end STree

/-! ### The splay step preserves the in-order sequence and tracks content -/

open STree

theorem zig_entriesIn {α : Type} (d : Dir) (t : STree α) :
    entriesIn (zig d t) = entriesIn t := by
  cases d <;> cases t with
  | nil => rfl
  | node l k v r => cases l <;> cases r <;> simp [zig, entriesIn]

theorem zig2_entriesIn {α : Type} (d1 d2 : Dir) (t : STree α) :
    entriesIn (zig2 d1 d2 t) = entriesIn t := by
  cases d1 <;> cases d2 <;> cases t with
  | nil => rfl
  | node l k v r =>
    cases l with
    | nil => cases r with
      | nil => rfl
      | node rl rk rv rr => cases rl <;> cases rr <;> simp [zig2, entriesIn]
    | node ll lk lv lr =>
      cases r with
      | nil => cases ll <;> cases lr <;> simp [zig2, entriesIn]
      | node rl rk rv rr =>
        cases ll <;> cases lr <;> cases rl <;> cases rr <;> simp [zig2, entriesIn]

theorem splayStep_entriesIn {α : Type} (t : STree α) (p : List Dir) :
    entriesIn (splayStep t p).1 = entriesIn t := by
  induction t, p using splayStep.induct with
  | case1 t => simp [splayStep]
  | case2 t d => simp [splayStep, zig_entriesIn]
  | case3 t d1 d2 => simp [splayStep, zig2_entriesIn]
  | case4 l k v r p1 p2 ps ih => simp [splayStep, entriesIn, ih]
  | case5 l k v r p1 p2 ps ih => simp [splayStep, entriesIn, ih]
  | case6 p => simp [splayStep]

theorem splayStep_keyAt {α : Type} (t : STree α) (p : List Dir) (e : Int × α)
    (h : keyAt t p = some e) :
    keyAt (splayStep t p).1 (splayStep t p).2 = some e := by
  induction t, p using splayStep.induct with
  | case1 t => simpa [splayStep] using h
  | case2 t d =>
    cases t with
    | nil => simp [keyAt] at h
    | node l k v r =>
      cases d with
      | L =>
        cases l with
        | nil => simp [keyAt] at h
        | node a xk xv b =>
          simp [keyAt] at h
          subst h
          simp [splayStep, zig, keyAt]
      | R =>
        cases r with
        | nil => simp [keyAt] at h
        | node a xk xv b =>
          simp [keyAt] at h
          subst h
          simp [splayStep, zig, keyAt]
  | case3 t d1 d2 =>
    cases t with
    | nil => simp [keyAt] at h
    | node l gk gv r =>
      cases d1 with
      | L =>
        cases l with
        | nil => simp [keyAt] at h
        | node ll pk pv lr =>
          cases d2 with
          | L =>
            cases ll with
            | nil => simp [keyAt] at h
            | node a xk xv b =>
              simp [keyAt] at h
              subst h
              simp [splayStep, zig2, keyAt]
          | R =>
            cases lr with
            | nil => simp [keyAt] at h
            | node a xk xv b =>
              simp [keyAt] at h
              subst h
              simp [splayStep, zig2, keyAt]
      | R =>
        cases r with
        | nil => simp [keyAt] at h
        | node rl pk pv rr =>
          cases d2 with
          | L =>
            cases rl with
            | nil => simp [keyAt] at h
            | node a xk xv b =>
              simp [keyAt] at h
              subst h
              simp [splayStep, zig2, keyAt]
          | R =>
            cases rr with
            | nil => simp [keyAt] at h
            | node a xk xv b =>
              simp [keyAt] at h
              subst h
              simp [splayStep, zig2, keyAt]
  | case4 l k v r p1 p2 ps ih =>
    simp only [keyAt] at h
    simp [splayStep, keyAt, ih h]
  | case5 l k v r p1 p2 ps ih =>
    simp only [keyAt] at h
    simp [splayStep, keyAt, ih h]
  | case6 p => simp [keyAt] at h

theorem splayStep_shorter {α : Type} (t : STree α) (p : List Dir) (e : Int × α)
    (h : keyAt t p = some e) (hp : p ≠ []) :
    (splayStep t p).2.length < p.length := by
  induction t, p using splayStep.induct with
  | case1 t => exact absurd rfl hp
  | case2 t d => simp [splayStep]
  | case3 t d1 d2 => simp [splayStep]
  | case4 l k v r p1 p2 ps ih =>
    simp only [keyAt] at h
    have := ih h (by simp)
    simp only [List.length_cons] at this
    simp only [splayStep, List.length_cons]
    omega
  | case5 l k v r p1 p2 ps ih =>
    simp only [keyAt] at h
    have := ih h (by simp)
    simp only [List.length_cons] at this
    simp only [splayStep, List.length_cons]
    omega
  | case6 p => simp [keyAt] at h

theorem splayLoop_entriesIn {α : Type} (n : Nat) (t : STree α) (p : List Dir) :
    entriesIn (splayLoop n t p).1 = entriesIn t := by
  induction n generalizing t p with
  | zero => rfl
  | succ n ih =>
    cases p with
    | nil => rfl
    | cons d p =>
      simp only [splayLoop]
      rw [ih, splayStep_entriesIn]

theorem splayLoop_spec {α : Type} (n : Nat) (t : STree α) (p : List Dir)
    (e : Int × α) (h : keyAt t p = some e) (hn : p.length ≤ n) :
    (splayLoop n t p).2 = [] ∧ keyAt (splayLoop n t p).1 [] = some e := by
  induction n generalizing t p with
  | zero =>
    have hp : p = [] := List.eq_nil_of_length_eq_zero (Nat.le_zero.mp hn)
    subst hp
    exact ⟨rfl, h⟩
  | succ n ih =>
    cases p with
    | nil => exact ⟨rfl, h⟩
    | cons d p =>
      simp only [splayLoop]
      refine ih _ _ (splayStep_keyAt _ _ _ h) ?_
      have := splayStep_shorter _ _ _ h (by simp)
      simp only [List.length_cons] at this hn ⊢
      omega

theorem splayFull_entriesIn {α : Type} (t : STree α) (p : List Dir) :
    entriesIn (splayFull t p) = entriesIn t :=
  splayLoop_entriesIn _ _ _

theorem splayFull_rootEntry {α : Type} (t : STree α) (p : List Dir)
    (e : Int × α) (h : keyAt t p = some e) :
    rootEntry (splayFull t p) = some e :=
  (splayLoop_spec p.length t p e h le_rfl).2

theorem rootEntry_shape {α : Type} (t : STree α) (e : Int × α)
    (h : rootEntry t = some e) : ∃ l r, t = STree.node l e.1 e.2 r := by
  cases t with
  | nil => simp [rootEntry, keyAt] at h
  | node l k v r =>
    simp [rootEntry, keyAt] at h
    exact ⟨l, r, by rw [← h]⟩

/-! ### Splaying the rightmost node: the path `_spli_max_key_son` follows -/

theorem subtreeAt_keyAt {α : Type} (t : STree α) (p : List Dir) (x : STree α)
    (k : Int) (v : α) (r : STree α) (h : subtreeAt t p = some (.node x k v r)) :
    keyAt t p = some (k, v) := by
  induction t generalizing p with
  | nil =>
    cases p with
    | nil => simp [subtreeAt] at h
    | cons d p => simp [subtreeAt] at h
  | node l key d r ihl ihr =>
    cases p with
    | nil =>
      simp only [subtreeAt, Option.some.injEq] at h
      injection h with h1 h2 h3 h4
      subst h2
      subst h3
      simp [keyAt]
    | cons dd p =>
      cases dd with
      | L => simp only [subtreeAt] at h; simpa [keyAt] using ihl p h
      | R => simp only [subtreeAt] at h; simpa [keyAt] using ihr p h

theorem splayStep_maxnode {α : Type} (t : STree α) (p : List Dir) (x : STree α)
    (k : Int) (v : α) (hA : allR p)
    (h : subtreeAt t p = some (.node x k v .nil)) :
    allR (splayStep t p).2 ∧
      ∃ x', subtreeAt (splayStep t p).1 (splayStep t p).2 =
        some (STree.node x' k v .nil) := by
  induction t, p using splayStep.induct with
  | case1 t =>
    simp only [subtreeAt] at h
    cases h
    exact ⟨hA, x, by simp [splayStep, subtreeAt]⟩
  | case2 t d =>
    have hd : d = Dir.R := hA d (by simp)
    subst hd
    cases t with
    | nil => simp [subtreeAt] at h
    | node a pk pv r =>
      simp only [subtreeAt, Option.some.injEq] at h
      subst h
      refine ⟨by intro d hd; simp [splayStep] at hd, STree.node a pk pv x, ?_⟩
      simp [splayStep, zig, subtreeAt]
  | case3 t d1 d2 =>
    have hd1 : d1 = Dir.R := hA d1 (by simp)
    have hd2 : d2 = Dir.R := hA d2 (by simp)
    subst hd1; subst hd2
    cases t with
    | nil => simp [subtreeAt] at h
    | node a gk gv r =>
      simp only [subtreeAt] at h
      cases r with
      | nil => simp [subtreeAt] at h
      | node b pk pv rr =>
        simp only [subtreeAt, Option.some.injEq] at h
        subst h
        refine ⟨by intro d hd; simp [splayStep] at hd,
          STree.node (STree.node a gk gv b) pk pv x, ?_⟩
        simp [splayStep, zig2, subtreeAt]
  | case4 l k' v' r p1 p2 ps ih =>
    have : Dir.L = Dir.R := hA Dir.L (by simp)
    simp at this
  | case5 l k' v' r p1 p2 ps ih =>
    simp only [subtreeAt] at h
    have hA' : allR (p1 :: p2 :: ps) := fun d hd => hA d (by simp [hd])
    obtain ⟨h1, x', h2⟩ := ih hA' h
    refine ⟨?_, x', ?_⟩
    · intro d hd
      simp only [splayStep, List.mem_cons] at hd
      rcases hd with rfl | hd
      · rfl
      · exact h1 d hd
    · simpa [splayStep, subtreeAt] using h2
  | case6 p => simp [subtreeAt] at h

theorem splayLoop_maxnode {α : Type} (n : Nat) (t : STree α) (p : List Dir)
    (x : STree α) (k : Int) (v : α) (hA : allR p)
    (h : subtreeAt t p = some (.node x k v .nil)) (hn : p.length ≤ n) :
    ∃ x', (splayLoop n t p).1 = STree.node x' k v .nil := by
  induction n generalizing t p x with
  | zero =>
    have hp : p = [] := List.eq_nil_of_length_eq_zero (Nat.le_zero.mp hn)
    subst hp
    simp only [subtreeAt] at h
    cases h
    exact ⟨x, rfl⟩
  | succ n ih =>
    cases p with
    | nil =>
      simp only [subtreeAt] at h
      cases h
      exact ⟨x, rfl⟩
    | cons d p =>
      obtain ⟨hA', x', h'⟩ := splayStep_maxnode t (d :: p) x k v hA h
      have hkey := subtreeAt_keyAt t (d :: p) x k v .nil h
      have hlt := splayStep_shorter t (d :: p) (k, v) hkey (by simp)
      simp only [splayLoop]
      refine ih _ _ x' hA' h' ?_
      simp only [List.length_cons] at hlt hn
      omega

theorem maxPathT_allR {α : Type} (t : STree α) : allR (maxPathT t) := by
  induction t with
  | nil => intro d hd; simp [maxPathT] at hd
  | node l k v r ihl ihr =>
    cases r with
    | nil => intro d hd; simp [maxPathT] at hd
    | node a b c d =>
      intro e he
      simp only [maxPathT, List.mem_cons] at he
      rcases he with rfl | he
      · rfl
      · exact ihr e (by simpa [maxPathT] using he)

theorem maxPathT_subtree {α : Type} (r l : STree α) (k : Int) (v : α) :
    ∃ x k' v', subtreeAt (STree.node l k v r) (maxPathT (STree.node l k v r)) =
      some (STree.node x k' v' .nil) := by
  induction r generalizing l k v with
  | nil => exact ⟨l, k, v, rfl⟩
  | node rl rk rv rr ih1 ih2 =>
    simpa [maxPathT, subtreeAt] using ih2 rl rk rv

theorem splayFull_maxPath {α : Type} (l : STree α) (k : Int) (v : α)
    (r : STree α) :
    ∃ x k' v', splayFull (STree.node l k v r) (maxPathT (STree.node l k v r)) =
      STree.node x k' v' .nil := by
  obtain ⟨x, k', v', h⟩ := maxPathT_subtree r l k v
  obtain ⟨x', h'⟩ := splayLoop_maxnode _ _ _ x k' v' (maxPathT_allR _) h le_rfl
  exact ⟨x', k', v', h'⟩

/-! ### The join used by deletion -/

theorem join_nil_left {α : Type} (r : STree α) : _spli_join .nil r = r := by
  cases r <;> rfl

theorem join_nil_right {α : Type} (l : STree α) : _spli_join l .nil = l := by
  cases l <;> rfl

theorem join_spec {α : Type} (la : STree α) (lk : Int) (lv : α)
    (lr ra : STree α) (rk : Int) (rv : α) (rr : STree α) :
    ∃ a mk mv,
      _spli_join (.node la lk lv lr) (.node ra rk rv rr) =
        STree.node a mk mv (.node ra rk rv rr) ∧
      entriesIn (STree.node la lk lv lr) = entriesIn a ++ [(mk, mv)] := by
  obtain ⟨x, k', v', hx⟩ := splayFull_maxPath la lk lv lr
  refine ⟨x, k', v', ?_, ?_⟩
  · simp [_spli_join, hx]
  · have := splayFull_entriesIn (STree.node la lk lv lr)
      (maxPathT (STree.node la lk lv lr))
    rw [hx] at this
    simpa [entriesIn] using this.symm

theorem join_entries {α : Type} (l r : STree α) :
    entriesIn (_spli_join l r) = entriesIn l ++ entriesIn r := by
  cases l with
  | nil => simp [join_nil_left, entriesIn]
  | node la lk lv lr =>
    cases r with
    | nil => simp [join_nil_right, entriesIn]
    | node ra rk rv rr =>
      obtain ⟨a, mk, mv, hj, he⟩ := join_spec la lk lv lr ra rk rv rr
      have he2 : entriesIn la ++ (lk, lv) :: entriesIn lr =
          entriesIn a ++ [(mk, mv)] := by simpa [entriesIn] using he
      have h2 := congrArg
        (fun s => s ++ (entriesIn ra ++ (rk, rv) :: entriesIn rr)) he2
      simp only [List.append_assoc, List.cons_append, List.nil_append] at h2
      rw [hj]
      simp only [entriesIn, List.append_assoc, List.cons_append]
      rw [h2]

/-! ### Ranges of C `int` values and the wrap-around comparator -/

theorem safeRange_int32 {z : Int} (h : SafeRange z) : Int32 z := by
  unfold SafeRange at h
  unfold Int32
  omega

theorem wrap32_eq_self (z : Int) (h1 : -2 ^ 31 ≤ z) (h2 : z < 2 ^ 31) :
    wrap32 z = z := by
  unfold wrap32
  omega

theorem wrap32_sub_safe (a b : Int) (ha : SafeRange a) (hb : SafeRange b) :
    wrap32 (a - b) = a - b := by
  unfold SafeRange at ha hb
  exact wrap32_eq_self _ (by omega) (by omega)

theorem wrap32_sub_eq_zero (a b : Int) (ha : Int32 a) (hb : Int32 b)
    (h : wrap32 (a - b) = 0) : a = b := by
  unfold Int32 at ha hb
  unfold wrap32 at h
  omega

theorem keysSafe_int32 {α : Type} {t : STree α} (h : KeysSafe t) :
    KeysInt32 t := fun x hx => safeRange_int32 (h x hx)

theorem keysSafe_node {α : Type} {l : STree α} {k : Int} {v : α} {r : STree α}
    (h : KeysSafe (.node l k v r)) :
    KeysSafe l ∧ SafeRange k ∧ KeysSafe r := by
  refine ⟨fun x hx => h x ?_, h k ?_, fun x hx => h x ?_⟩
  · simp [keysIn_node, hx]
  · simp [keysIn_node]
  · simp [keysIn_node, hx]

/-! ### Insertion: content at the insertion path, entries, size -/

theorem insertBST_keyAt {α : Type} (t : STree α) (k : Int) (v : α) :
    keyAt (insertBST t k v) (insertPath t k) = some (k, v) := by
  induction t with
  | nil => simp [insertBST, insertPath, keyAt]
  | node l key d r ihl ihr =>
    by_cases h : 0 ≤ wrap32 (key - k) <;>
      simp [insertBST, insertPath, h, keyAt, ihl, ihr]

theorem insertBST_perm {α : Type} (t : STree α) (k : Int) (v : α) :
    (entriesIn (insertBST t k v)).Perm ((k, v) :: entriesIn t) := by
  induction t with
  | nil => simp [insertBST, entriesIn]
  | node l key d r ihl ihr =>
    by_cases h : 0 ≤ wrap32 (key - k)
    · simp only [insertBST, if_pos h, entriesIn]
      exact ihl.append_right ((key, d) :: entriesIn r)
    · simp only [insertBST, if_neg h, entriesIn]
      refine (List.Perm.append_left _ (List.Perm.cons _ ihr)).trans ?_
      have h2 : ((entriesIn l ++ [(key, d)]) ++ (k, v) :: entriesIn r).Perm
          ((k, v) :: ((entriesIn l ++ [(key, d)]) ++ entriesIn r)) :=
        List.perm_middle
      simpa [List.append_assoc] using h2

theorem insertBST_entries {α : Type} (t : STree α) (k : Int) (v : α) :
    ((entriesIn (insertBST t k v) : List (Int × α)) : Multiset (Int × α)) =
      (k, v) ::ₘ ((entriesIn t : List (Int × α)) : Multiset (Int × α)) := by
  rw [Multiset.cons_coe]
  exact Multiset.coe_eq_coe.mpr (insertBST_perm t k v)

theorem insertBST_size {α : Type} (t : STree α) (k : Int) (v : α) :
    sizeT (insertBST t k v) = sizeT t + 1 := by
  have h := congrArg Multiset.card (insertBST_entries t k v)
  simpa [entriesIn_length] using h

theorem insertBST_keys {α : Type} (t : STree α) (k : Int) (v : α) :
    ((keysIn (insertBST t k v) : List Int) : Multiset Int) =
      k ::ₘ ((keysIn t : List Int) : Multiset Int) := by
  have h := congrArg (Multiset.map Prod.fst) (insertBST_entries t k v)
  simpa [keysIn] using h

/-! ### Search: soundness and (for safe sorted trees) completeness -/

theorem search_sound {α : Type} (t : STree α) (k : Int) (p : List Dir)
    (h : _spli_search_node t k = some p) :
    ∃ e : Int × α, keyAt t p = some e ∧ wrap32 (e.1 - k) = 0 := by
  induction t generalizing p with
  | nil => simp [_spli_search_node] at h
  | node l key d r ihl ihr =>
    simp only [_spli_search_node] at h
    by_cases h1 : wrap32 (key - k) > 0
    · simp only [h1, if_pos] at h
      obtain ⟨p', hp', rfl⟩ := Option.map_eq_some'.mp h
      obtain ⟨e, he, hw⟩ := ihl p' hp'
      exact ⟨e, by simpa [keyAt] using he, hw⟩
    · by_cases h2 : wrap32 (key - k) < 0
      · simp only [h1, h2, if_neg, if_pos, not_false_iff] at h
        obtain ⟨p', hp', rfl⟩ := Option.map_eq_some'.mp h
        obtain ⟨e, he, hw⟩ := ihr p' hp'
        exact ⟨e, by simpa [keyAt] using he, hw⟩
      · simp only [h1, h2, if_neg, not_false_iff] at h
        obtain rfl : [] = p := Option.some.inj h
        refine ⟨(key, d), by simp [keyAt], ?_⟩
        show wrap32 (key - k) = 0
        omega

theorem nodeSorted_iff_sorted {α : Type} (t : STree α) :
    NodeSorted t ↔ List.Sorted (· ≤ ·) (keysIn t) := by
  induction t with
  | nil => simp [NodeSorted, keysIn, entriesIn]
  | node l k v r ihl ihr =>
    rw [keysIn_node]
    constructor
    · rintro ⟨hl, hr, sl, sr⟩
      rw [List.Sorted, List.pairwise_append]
      refine ⟨ihl.mp sl, ?_, ?_⟩
      · rw [List.pairwise_cons]
        exact ⟨hr, ihr.mp sr⟩
      · intro a ha b hb
        rcases List.mem_cons.mp hb with rfl | hb
        · exact hl a ha
        · exact (hl a ha).trans (hr b hb)
    · intro hs
      rw [List.Sorted, List.pairwise_append, List.pairwise_cons] at hs
      obtain ⟨sl, ⟨hr, sr⟩, hx⟩ := hs
      exact ⟨fun a ha => hx a ha k (List.mem_cons_self _ _), hr,
        ihl.mpr sl, ihr.mpr sr⟩

theorem search_complete {α : Type} (t : STree α) (k : Int)
    (hs : NodeSorted t) (hk : SafeRange k) (ht : KeysSafe t)
    (hmem : k ∈ keysIn t) :
    ∃ (p : List Dir) (v : α),
      _spli_search_node t k = some p ∧ keyAt t p = some (k, v) := by
  induction t with
  | nil => simp [keysIn, entriesIn] at hmem
  | node l key d r ihl ihr =>
    obtain ⟨hsafel, hsafek, hsafer⟩ := keysSafe_node ht
    obtain ⟨hl, hr, sl, sr⟩ := hs
    have hw := wrap32_sub_safe key k hsafek hk
    rcases lt_trichotomy k key with hlt | heq | hgt
    · -- k < key: k cannot be in the right subtree, descend left.
      have hmem' : k ∈ keysIn l := by
        rw [keysIn_node] at hmem
        rcases List.mem_append.mp hmem with h' | h'
        · exact h'
        · rcases List.mem_cons.mp h' with rfl | h'
          · omega
          · exact absurd (hr k h') (by omega)
      obtain ⟨p, v, hp, hA⟩ := ihl sl hsafel hmem'
      refine ⟨Dir.L :: p, v, ?_, by simpa [keyAt] using hA⟩
      simp only [_spli_search_node, hw]
      rw [if_pos (by omega), hp]
      rfl
    · -- k = key: found at this node.
      refine ⟨[], d, ?_, by simp [keyAt, heq]⟩
      simp only [_spli_search_node, hw]
      rw [if_neg (by omega), if_neg (by omega)]
    · -- k > key: k cannot be in the left subtree, descend right.
      have hmem' : k ∈ keysIn r := by
        rw [keysIn_node] at hmem
        rcases List.mem_append.mp hmem with h' | h'
        · exact absurd (hl k h') (by omega)
        · rcases List.mem_cons.mp h' with rfl | h'
          · omega
          · exact h'
      obtain ⟨p, v, hp, hA⟩ := ihr sr hsafer hmem'
      refine ⟨Dir.R :: p, v, ?_, by simpa [keyAt] using hA⟩
      simp only [_spli_search_node, hw]
      rw [if_neg (by omega), if_pos (by omega), hp]
      rfl

theorem search_absent {α : Type} (t : STree α) (k : Int)
    (hs : NodeSorted t) (hk : SafeRange k) (ht : KeysSafe t)
    (hmem : k ∉ keysIn t) :
    _spli_search_node t k = none := by
  induction t with
  | nil => rfl
  | node l key d r ihl ihr =>
    obtain ⟨hsafel, hsafek, hsafer⟩ := keysSafe_node ht
    obtain ⟨hl, hr, sl, sr⟩ := hs
    have hw := wrap32_sub_safe key k hsafek hk
    have hne : k ≠ key := fun h => hmem (by simp [keysIn_node, h])
    have hneml : k ∉ keysIn l := fun h => hmem (by simp [keysIn_node, h])
    have hnemr : k ∉ keysIn r := fun h => hmem (by simp [keysIn_node, h])
    rcases lt_trichotomy k key with hlt | heq | hgt
    · simp only [_spli_search_node, hw]
      rw [if_pos (by omega), ihl sl hsafel hneml]
      rfl
    · exact absurd heq hne
    · simp only [_spli_search_node, hw]
      rw [if_neg (by omega), if_pos (by omega), ihr sr hsafer hnemr]
      rfl

/-! ### Order and range preservation by the operations -/

theorem splayFull_keysIn {α : Type} (t : STree α) (p : List Dir) :
    keysIn (splayFull t p) = keysIn t := by
  simp [keysIn, splayFull_entriesIn]

theorem splayFull_nodeSorted {α : Type} (t : STree α) (p : List Dir)
    (h : NodeSorted t) : NodeSorted (splayFull t p) := by
  rw [nodeSorted_iff_sorted, splayFull_keysIn]
  exact (nodeSorted_iff_sorted t).mp h

theorem splayFull_size {α : Type} (t : STree α) (p : List Dir) :
    sizeT (splayFull t p) = sizeT t := by
  rw [← entriesIn_length, splayFull_entriesIn, entriesIn_length]

theorem join_size {α : Type} (l r : STree α) :
    sizeT (_spli_join l r) = sizeT l + sizeT r := by
  rw [← entriesIn_length, join_entries]
  simp [entriesIn_length]

theorem join_keysIn {α : Type} (l r : STree α) :
    keysIn (_spli_join l r) = keysIn l ++ keysIn r := by
  simp [keysIn, join_entries]

theorem insertBST_sorted {α : Type} (t : STree α) (k : Int) (v : α)
    (hs : NodeSorted t) (hk : SafeRange k) (ht : KeysSafe t) :
    NodeSorted (insertBST t k v) := by
  induction t with
  | nil => simp [insertBST, NodeSorted, keysIn, entriesIn]
  | node l key d r ihl ihr =>
    obtain ⟨hsl, hsk, hsr⟩ := keysSafe_node ht
    obtain ⟨hl, hr, sl, sr⟩ := hs
    have hw := wrap32_sub_safe key k hsk hk
    by_cases h : 0 ≤ wrap32 (key - k)
    · simp only [insertBST, if_pos h, NodeSorted]
      refine ⟨?_, hr, ihl sl hsl, sr⟩
      intro x hx
      have hx2 : x ∈ k ::ₘ ((keysIn l : List Int) : Multiset Int) := by
        rw [← insertBST_keys l k v]
        exact Multiset.mem_coe.mpr hx
      rcases Multiset.mem_cons.mp hx2 with rfl | hmem
      · omega
      · exact hl x (Multiset.mem_coe.mp hmem)
    · simp only [insertBST, if_neg h, NodeSorted]
      refine ⟨hl, ?_, sl, ihr sr hsr⟩
      intro x hx
      have hx2 : x ∈ k ::ₘ ((keysIn r : List Int) : Multiset Int) := by
        rw [← insertBST_keys r k v]
        exact Multiset.mem_coe.mpr hx
      rcases Multiset.mem_cons.mp hx2 with rfl | hmem
      · omega
      · exact hr x (Multiset.mem_coe.mp hmem)

/-! ### Specifications of the public operations -/

theorem insert_full {α : Type} (t : SplayIntTree α) (k : Int) (v : α)
    (h : t.nodes_count = t.max_nodes) : splay_int_insert t k v = (t, 0) := by
  simp [splay_int_insert, h]

theorem insert_spec {α : Type} (t : SplayIntTree α) (k : Int) (v : α)
    (h : t.nodes_count ≠ t.max_nodes) :
    rootEntry ((splay_int_insert t k v).1)._root = some (k, v) ∧
    (splay_int_insert t k v).2 = t.nodes_count + 1 ∧
    (splay_int_insert t k v).1.nodes_count = t.nodes_count + 1 ∧
    (splay_int_insert t k v).1.max_nodes = t.max_nodes ∧
    ((entriesIn ((splay_int_insert t k v).1)._root : List (Int × α)) :
        Multiset (Int × α)) =
      (k, v) ::ₘ ((entriesIn t._root : List (Int × α)) : Multiset (Int × α)) := by
  cases ht : t._root with
  | nil =>
    simp [splay_int_insert, h, ht, rootEntry, keyAt, entriesIn]
  | node l key d r =>
    have hkeyAt := insertBST_keyAt (STree.node l key d r) k v
    have hroot := splayFull_rootEntry _ _ _ hkeyAt
    have hent := splayFull_entriesIn (insertBST (STree.node l key d r) k v)
      (insertPath (STree.node l key d r) k)
    simp only [splay_int_insert, if_neg h, ht]
    refine ⟨hroot, trivial, trivial, trivial, ?_⟩
    rw [hent]
    exact insertBST_entries _ k v

theorem insert_sizeT {α : Type} (t : SplayIntTree α) (k : Int) (v : α)
    (h : t.nodes_count ≠ t.max_nodes) :
    sizeT ((splay_int_insert t k v).1)._root = sizeT t._root + 1 := by
  obtain ⟨-, -, -, -, hm⟩ := insert_spec t k v h
  have := congrArg Multiset.card hm
  simpa [entriesIn_length] using this

theorem delete_neg_opts {α : Type} (t : SplayIntTree α) (k opts : Int)
    (h : opts < 0) : splay_int_delete t k opts = (t, 0) := by
  simp [splay_int_delete, h]

theorem delete_not_found {α : Type} (t : SplayIntTree α) (k opts : Int)
    (h : _spli_search_node t._root k = none) :
    splay_int_delete t k opts = (t, 0) := by
  by_cases ho : opts < 0
  · simp [splay_int_delete, ho]
  · simp [splay_int_delete, ho, h]

theorem delete_found {α : Type} (t : SplayIntTree α) (k opts : Int)
    (ho : ¬ opts < 0) (p : List Dir)
    (hp : _spli_search_node t._root k = some p) :
    ∃ (e : Int × α) (l r : STree α),
      keyAt t._root p = some e ∧ wrap32 (e.1 - k) = 0 ∧
      splayFull t._root p = STree.node l e.1 e.2 r ∧
      splay_int_delete t k opts =
        ({ t with _root := _spli_join l r,
                  nodes_count := t.nodes_count - 1 }, 1) := by
  obtain ⟨e, he, hw⟩ := search_sound t._root k p hp
  obtain ⟨l, r, hshape⟩ := rootEntry_shape _ _ (splayFull_rootEntry _ _ _ he)
  refine ⟨e, l, r, he, hw, hshape, ?_⟩
  simp [splay_int_delete, ho, hp, hshape]

theorem delete_entries {α : Type} (t : SplayIntTree α) (k opts : Int)
    (ho : ¬ opts < 0) (p : List Dir)
    (hp : _spli_search_node t._root k = some p) :
    ∃ e : Int × α, wrap32 (e.1 - k) = 0 ∧
      e ::ₘ ((entriesIn ((splay_int_delete t k opts).1)._root :
          List (Int × α)) : Multiset (Int × α)) =
        ((entriesIn t._root : List (Int × α)) : Multiset (Int × α)) := by
  obtain ⟨e, l, r, he, hw, hshape, hres⟩ := delete_found t k opts ho p hp
  refine ⟨e, hw, ?_⟩
  rw [hres]
  have h1 : entriesIn t._root = entriesIn l ++ e :: entriesIn r := by
    have := splayFull_entriesIn t._root p
    rw [hshape] at this
    simpa [entriesIn] using this.symm
  rw [h1]
  simp only [join_entries]
  rw [Multiset.cons_coe]
  exact Multiset.coe_eq_coe.mpr List.perm_middle.symm

/-! ### The breadth-first queue loop -/

theorem queueSize_append {α : Type} (a b : List (STree α)) :
    queueSize (a ++ b) = queueSize a + queueSize b := by
  induction a with
  | nil => simp [queueSize]
  | cons s a ih => simp [queueSize, ih]; omega

theorem queueEntries_append {α : Type} (a b : List (STree α)) :
    queueEntries (a ++ b) = queueEntries a + queueEntries b := by
  induction a with
  | nil => simp [queueEntries]
  | cons s a ih => simp [queueEntries, ih, add_assoc]

theorem bfsSons_size {α : Type} (lf : Bool) (l : STree α) (k : Int) (v : α)
    (r : STree α) : queueSize (bfsSons lf (.node l k v r)) = sizeT l + sizeT r := by
  cases lf <;> cases l <;> cases r <;>
    simp [bfsSons, queueSize, sizeT] <;> omega

theorem bfsSons_entries {α : Type} (lf : Bool) (l : STree α) (k : Int) (v : α)
    (r : STree α) :
    queueEntries (bfsSons lf (.node l k v r)) =
      ((entriesIn l : List (Int × α)) : Multiset (Int × α)) +
        ((entriesIn r : List (Int × α)) : Multiset (Int × α)) := by
  cases lf <;> cases l <;> cases r <;>
    first
    | (simp [bfsSons, queueEntries, entriesIn]; done)
    | (simp [bfsSons, queueEntries]; exact List.perm_append_comm)
    | (simp [bfsSons, queueEntries]; exact add_comm _ _)

theorem bfsSons_no_nil {α : Type} (lf : Bool) (t : STree α) :
    STree.nil ∉ bfsSons lf t := by
  cases t with
  | nil => simp [bfsSons]
  | node l k v r => cases lf <;> cases l <;> cases r <;> simp [bfsSons]

theorem queueEntries_card {α : Type} (q : List (STree α)) :
    Multiset.card (queueEntries q) = queueSize q := by
  induction q with
  | nil => rfl
  | cons s q ih => simp [queueEntries, queueSize, entriesIn_length, ih]

theorem bfsRun_spec {α : Type} (lf : Bool) (n : Nat) (q : List (STree α))
    (hq : STree.nil ∉ q) (hn : queueSize q = n) :
    ((bfsRun lf n q : List (Int × α)) : Multiset (Int × α)) = queueEntries q := by
  induction n generalizing q with
  | zero =>
    cases q with
    | nil => rfl
    | cons s q' =>
      cases s with
      | nil => simp at hq
      | node l k v r =>
        exfalso
        simp only [queueSize, sizeT] at hn
        omega
  | succ n ih =>
    cases q with
    | nil => simp [queueSize] at hn
    | cons s q' =>
      cases s with
      | nil => simp at hq
      | node l k v r =>
        have hq' : STree.nil ∉ q' ++ bfsSons lf (.node l k v r) := by
          rw [List.mem_append]
          rintro (h' | h')
          · exact hq (List.mem_cons_of_mem _ h')
          · exact bfsSons_no_nil lf _ h'
        have hn' : queueSize (q' ++ bfsSons lf (.node l k v r)) = n := by
          rw [queueSize_append, bfsSons_size]
          simp only [queueSize, sizeT] at hn
          omega
        have hcons : (((k, v) :: bfsRun lf n (q' ++ bfsSons lf (.node l k v r)) :
            List (Int × α)) : Multiset (Int × α)) =
            (k, v) ::ₘ ((bfsRun lf n (q' ++ bfsSons lf (.node l k v r)) :
              List (Int × α)) : Multiset (Int × α)) := by
          simp
        have hco : ((entriesIn (STree.node l k v r) : List (Int × α)) :
            Multiset (Int × α)) =
            ((entriesIn l : List (Int × α)) : Multiset (Int × α)) +
              ((k, v) ::ₘ ((entriesIn r : List (Int × α)) :
                Multiset (Int × α))) := by
          simp [entriesIn]
        show (((k, v) :: bfsRun lf n (q' ++ bfsSons lf (.node l k v r)) :
            List (Int × α)) : Multiset (Int × α)) =
          queueEntries (STree.node l k v r :: q')
        rw [hcons, ih _ hq' hn', queueEntries_append, bfsSons_entries]
        simp only [queueEntries, hco]
        simp only [← Multiset.singleton_add]
        abel

theorem bfsRun_length {α : Type} (lf : Bool) (n : Nat) (q : List (STree α))
    (hq : STree.nil ∉ q) (hn : queueSize q = n) :
    (bfsRun lf n q).length = n := by
  have h := congrArg Multiset.card (bfsRun_spec lf n q hq hn)
  rw [queueEntries_card, hn] at h
  simpa using h

/-! ### Frame property of non-splaying searches -/

theorem search_no_splay_frame {α : Type} (t : SplayIntTree α) (k opts : Int)
    (h : hasFlag opts 2 = false) : (splay_int_search t k opts).1 = t := by
  unfold splay_int_search
  by_cases h0 : opts ≤ 0
  · simp [h0]
  · cases hsp : _spli_search_node t._root k with
    | none => simp [h0, hsp]
    | some p =>
      simp only [h0, if_neg, hsp, h, Bool.false_eq_true, if_false]
      cases hk : keyAt t._root p <;> simp [hk]

/-! ### Invariants of every tree the public interface can build -/

theorem create_inv (α : Type) : TreeInv (create_splay_int_tree α) :=
  ⟨rfl, rfl⟩

theorem insert_inv {α : Type} (t : SplayIntTree α) (k : Int) (v : α)
    (h : TreeInv t) : TreeInv (splay_int_insert t k v).1 := by
  by_cases hc : t.nodes_count = t.max_nodes
  · rw [insert_full t k v hc]
    exact h
  · obtain ⟨-, -, hcount, hmax, -⟩ := insert_spec t k v hc
    exact ⟨by rw [hcount, insert_sizeT t k v hc, h.1], by rw [hmax]; exact h.2⟩

theorem delete_inv {α : Type} (t : SplayIntTree α) (k opts : Int)
    (h : TreeInv t) : TreeInv (splay_int_delete t k opts).1 := by
  by_cases ho : opts < 0
  · rw [delete_neg_opts t k opts ho]
    exact h
  · cases hp : _spli_search_node t._root k with
    | none =>
      rw [delete_not_found t k opts hp]
      exact h
    | some p =>
      obtain ⟨e, l, r, he, hw, hshape, hres⟩ := delete_found t k opts ho p hp
      have hsz : sizeT t._root = sizeT l + 1 + sizeT r := by
        have h2 := splayFull_size t._root p
        rw [hshape] at h2
        simpa [sizeT] using h2.symm
      rw [hres]
      refine ⟨?_, h.2⟩
      show t.nodes_count - 1 = sizeT (_spli_join l r)
      rw [join_size, h.1, hsz]
      omega

theorem applyOp_inv {α : Type} (t : SplayIntTree α) (op : Op α)
    (h : TreeInv t) : TreeInv (applyOp t op) := by
  cases op with
  | ins k v => exact insert_inv t k v h
  | del k o => exact delete_inv t k o h

theorem runOps_inv {α : Type} (ops : List (Op α)) : TreeInv (runOps ops) := by
  suffices h : ∀ t : SplayIntTree α, TreeInv t → TreeInv (ops.foldl applyOp t) by
    exact h _ (create_inv α)
  induction ops with
  | nil => exact fun t ht => ht
  | cons op ops ih =>
    intro t ht
    exact ih _ (applyOp_inv t op ht)

theorem insert_sortedSafe {α : Type} (t : SplayIntTree α) (k : Int) (v : α)
    (hk : SafeRange k) (h : SortedSafe t) :
    SortedSafe (splay_int_insert t k v).1 := by
  by_cases hc : t.nodes_count = t.max_nodes
  · rw [insert_full t k v hc]
    exact h
  · have hroot : ((entriesIn ((splay_int_insert t k v).1)._root :
        List (Int × α)) : Multiset (Int × α)) =
        (k, v) ::ₘ ((entriesIn t._root : List (Int × α)) :
          Multiset (Int × α)) := (insert_spec t k v hc).2.2.2.2
    have hsafe : KeysSafe ((splay_int_insert t k v).1)._root := by
      intro x hx
      have hx2 : (x ∈ ((keysIn ((splay_int_insert t k v).1)._root : List Int) :
          Multiset Int)) := Multiset.mem_coe.mpr hx
      have hkeys : ((keysIn ((splay_int_insert t k v).1)._root : List Int) :
          Multiset Int) = k ::ₘ ((keysIn t._root : List Int) : Multiset Int) := by
        have h2 := congrArg (Multiset.map Prod.fst) hroot
        simpa [keysIn] using h2
      rw [hkeys] at hx2
      rcases Multiset.mem_cons.mp hx2 with rfl | hmem
      · exact hk
      · exact h.2 x (Multiset.mem_coe.mp hmem)
    refine ⟨?_, hsafe⟩
    cases ht : t._root with
    | nil =>
      have : (splay_int_insert t k v).1._root = .node .nil k v .nil := by
        simp [splay_int_insert, hc, ht]
      rw [this]
      exact ⟨by simp [keysIn, entriesIn], by simp [keysIn, entriesIn],
        trivial, trivial⟩
    | node l key d r =>
      have hstep : (splay_int_insert t k v).1._root =
          splayFull (insertBST (STree.node l key d r) k v)
            (insertPath (STree.node l key d r) k) := by
        simp [splay_int_insert, hc, ht]
      rw [hstep]
      refine splayFull_nodeSorted _ _ (insertBST_sorted _ k v ?_ hk ?_)
      · have := h.1
        rwa [ht] at this
      · intro x hx
        refine h.2 x ?_
        rw [ht]
        exact hx

theorem delete_sortedSafe {α : Type} (t : SplayIntTree α) (k opts : Int)
    (h : SortedSafe t) : SortedSafe (splay_int_delete t k opts).1 := by
  by_cases ho : opts < 0
  · rw [delete_neg_opts t k opts ho]
    exact h
  · cases hp : _spli_search_node t._root k with
    | none =>
      rw [delete_not_found t k opts hp]
      exact h
    | some p =>
      obtain ⟨e, l, r, he, hw, hshape, hres⟩ := delete_found t k opts ho p hp
      have hkeys : keysIn t._root = keysIn l ++ e.1 :: keysIn r := by
        have h2 := splayFull_keysIn t._root p
        rw [hshape] at h2
        simpa [keysIn_node] using h2.symm
      rw [hres]
      constructor
      · show NodeSorted (_spli_join l r)
        rw [nodeSorted_iff_sorted, join_keysIn]
        have hsor : List.Sorted (· ≤ ·) (keysIn t._root) :=
          (nodeSorted_iff_sorted _).mp h.1
        rw [hkeys] at hsor
        exact List.Pairwise.sublist
          ((List.sublist_cons_self e.1 (keysIn r)).append_left (keysIn l)) hsor
      · show KeysSafe (_spli_join l r)
        intro x hx
        refine h.2 x ?_
        rw [hkeys]
        rw [join_keysIn] at hx
        rcases List.mem_append.mp hx with h' | h'
        · exact List.mem_append.mpr (Or.inl h')
        · exact List.mem_append.mpr (Or.inr (List.mem_cons_of_mem _ h'))

theorem runOps_sortedSafe {α : Type} (ops : List (Op α))
    (h : ∀ op ∈ ops, OpSafe op) : SortedSafe (runOps ops) := by
  suffices hgen : ∀ t : SplayIntTree α, SortedSafe t →
      SortedSafe (ops.foldl applyOp t) by
    exact hgen _ ⟨trivial, by intro x hx; simp [keysIn, entriesIn,
      create_splay_int_tree] at hx⟩
  induction ops with
  | nil => exact fun t ht => ht
  | cons op ops ih =>
    intro t ht
    refine ih (fun o ho => h o (List.mem_cons_of_mem _ ho)) _ ?_
    cases op with
    | ins k v => exact insert_sortedSafe t k v (h _ (List.mem_cons_self _ _)) ht
    | del k o => exact delete_sortedSafe t k o ht

/-! ### More helper lemmas for the claims -/

theorem search_splay_root {α : Type} (t : SplayIntTree α) (k opts : Int)
    (p : List Dir) (ho : ¬ opts ≤ 0) (hspl : hasFlag opts 2 = true)
    (hp : _spli_search_node t._root k = some p) :
    ((splay_int_search t k opts).1)._root = splayFull t._root p := by
  simp only [splay_int_search, if_neg ho, hp, hspl, if_true]
  cases hk : keyAt (splayFull t._root p) [] with
  | none => simp [hk]
  | some e => simp [hk]

theorem insert_fail_frame {α : Type} (t : SplayIntTree α) (k : Int) (v : α)
    (h : (splay_int_insert t k v).2 = 0) : (splay_int_insert t k v).1 = t := by
  by_cases hc : t.nodes_count = t.max_nodes
  · rw [insert_full t k v hc]
  · exact absurd h (by rw [(insert_spec t k v hc).2.1]; omega)

theorem delete_fail_frame {α : Type} (t : SplayIntTree α) (k opts : Int)
    (h : (splay_int_delete t k opts).2 = 0) :
    (splay_int_delete t k opts).1 = t := by
  by_cases ho : opts < 0
  · rw [delete_neg_opts t k opts ho]
  · cases hp : _spli_search_node t._root k with
    | none => rw [delete_not_found t k opts hp]
    | some p =>
      obtain ⟨e, l, r, -, -, -, hres⟩ := delete_found t k opts ho p hp
      rw [hres] at h
      simp at h

theorem delete_count_decr {α : Type} (t : SplayIntTree α) (k opts : Int)
    (hinv : TreeInv t) (h1 : (splay_int_delete t k opts).2 = 1) :
    1 ≤ t.nodes_count ∧
      (splay_int_delete t k opts).1.nodes_count = t.nodes_count - 1 := by
  by_cases ho : opts < 0
  · rw [delete_neg_opts t k opts ho] at h1
    simp at h1
  · cases hp : _spli_search_node t._root k with
    | none =>
      rw [delete_not_found t k opts hp] at h1
      simp at h1
    | some p =>
      obtain ⟨e, l, r, he, -, hshape, hres⟩ := delete_found t k opts ho p hp
      have hsz : sizeT t._root = sizeT l + 1 + sizeT r := by
        have h2 := splayFull_size t._root p
        rw [hshape] at h2
        simpa [sizeT] using h2.symm
      constructor
      · rw [hinv.1, hsz]
        omega
      · rw [hres]

theorem opStep_inv {α : Type} (t : SplayIntTree α) (ni nd : Nat) (op : Op α)
    (hinv : TreeInv t) (hcnt : t.nodes_count + nd = ni) :
    TreeInv (opStep (t, ni, nd) op).1 ∧
      (opStep (t, ni, nd) op).1.nodes_count + (opStep (t, ni, nd) op).2.2 =
        (opStep (t, ni, nd) op).2.1 := by
  cases op with
  | ins k v =>
    refine ⟨insert_inv t k v hinv, ?_⟩
    by_cases hz : (splay_int_insert t k v).2 = 0
    · have := insert_fail_frame t k v hz
      simp only [opStep, hz, if_pos]
      rw [this]
      exact hcnt
    · have hc : t.nodes_count ≠ t.max_nodes := by
        intro hc
        exact hz (by rw [insert_full t k v hc])
      obtain ⟨-, -, hcount, -, -⟩ := insert_spec t k v hc
      simp only [opStep, hz, if_neg, ite_false]
      rw [hcount]
      omega
  | del k o =>
    refine ⟨delete_inv t k o hinv, ?_⟩
    by_cases hz : (splay_int_delete t k o).2 = 0
    · have := delete_fail_frame t k o hz
      simp only [opStep]
      rw [this, hz]
      omega
    · have h1 : (splay_int_delete t k o).2 = 1 := by
        by_cases hneg : o < 0
        · rw [delete_neg_opts t k o hneg] at hz
          simp at hz
        · cases hp : _spli_search_node t._root k with
          | none =>
            rw [delete_not_found t k o hp] at hz
            simp at hz
          | some p =>
            obtain ⟨e, l, r, -, -, -, hres⟩ := delete_found t k o hneg p hp
            rw [hres]
      obtain ⟨hge, hdec⟩ := delete_count_decr t k o hinv h1
      simp only [opStep]
      rw [hdec, h1]
      omega

theorem runCounts_inv {α : Type} (ops : List (Op α)) :
    TreeInv (runCounts ops).1 ∧
      (runCounts ops).1.nodes_count + (runCounts ops).2.2 =
        (runCounts ops).2.1 := by
  suffices hgen : ∀ s : SplayIntTree α × Nat × Nat,
      TreeInv s.1 ∧ s.1.nodes_count + s.2.2 = s.2.1 →
      TreeInv (ops.foldl opStep s).1 ∧
        (ops.foldl opStep s).1.nodes_count + (ops.foldl opStep s).2.2 =
          (ops.foldl opStep s).2.1 by
    exact hgen _ ⟨create_inv α, rfl⟩
  induction ops with
  | nil => exact fun s hs => hs
  | cons op ops ih =>
    rintro ⟨t, ni, nd⟩ hs
    exact ih _ (opStep_inv t ni nd op hs.1 hs.2)

theorem trav_project_ok {α : Type} (root : STree α) (es : List (Int × α))
    (m : Nat) (hperm : es.Perm (entriesIn root)) :
    travLen (travProject m es) = sizeT root ∧
      travOK root (travProject m es) := by
  have hco : ((es : List (Int × α)) : Multiset (Int × α)) =
      ((entriesIn root : List (Int × α)) : Multiset (Int × α)) :=
    Multiset.coe_eq_coe.mpr hperm
  by_cases h4 : m = 4
  · subst h4
    refine ⟨by simp [travProject, travLen, hperm.length_eq, entriesIn_length], ?_⟩
    simp only [travProject, if_pos rfl, travOK]
    have := congrArg (Multiset.map Prod.snd) hco
    simpa using this
  · by_cases h8 : m = 8
    · subst h8
      refine ⟨by simp [travProject, travLen, h4, hperm.length_eq,
        entriesIn_length], ?_⟩
      simp only [travProject, h4, if_neg, ite_false, if_pos rfl, travOK]
      have := congrArg (Multiset.map Prod.fst) hco
      simpa [keysIn] using this
    · refine ⟨by simp [travProject, travLen, h4, h8, hperm.length_eq,
        entriesIn_length], ?_⟩
      simp only [travProject, h4, h8, ite_false, travOK]
      exact hco

/-! ### Evaluation lemmas for `splay_int_search` -/

theorem search_notfound {α : Type} (t : SplayIntTree α) (k opts : Int)
    (hp : _spli_search_node t._root k = none) :
    splay_int_search t k opts = (t, SRes.null) := by
  by_cases ho : opts ≤ 0 <;> simp [splay_int_search, ho, hp]

theorem search_splay_found {α : Type} (t : SplayIntTree α) (k opts : Int)
    (p : List Dir) (e : Int × α) (ho : ¬ opts ≤ 0)
    (hspl : hasFlag opts 2 = true)
    (hp : _spli_search_node t._root k = some p)
    (he : keyAt t._root p = some e) :
    splay_int_search t k opts =
      ({ t with _root := splayFull t._root p },
       if hasFlag opts 4 then SRes.payload e.2
       else if hasFlag opts 16 then SRes.nodeRef e.1 e.2
       else SRes.null) := by
  have hre : keyAt (splayFull t._root p) [] = some e :=
    splayFull_rootEntry _ _ _ he
  simp [splay_int_search, ho, hp, hspl, hre]

theorem search_nosplay_found {α : Type} (t : SplayIntTree α) (k opts : Int)
    (p : List Dir) (e : Int × α) (ho : ¬ opts ≤ 0)
    (hspl : hasFlag opts 2 = false)
    (hp : _spli_search_node t._root k = some p)
    (he : keyAt t._root p = some e) :
    splay_int_search t k opts =
      (t, if hasFlag opts 4 then SRes.payload e.2
          else if hasFlag opts 16 then SRes.nodeRef e.1 e.2
          else SRes.null) := by
  simp [splay_int_search, ho, hp, hspl, he]

/-! ### Evaluation lemmas for the traversals -/

theorem hasFlag_pos (o : Int) (f : Nat) (h : hasFlag o f = true) : 0 < o := by
  by_contra hneg
  push_neg at hneg
  rw [hasFlag, Int.toNat_of_nonpos hneg] at h
  simp at h

theorem trav_empty {α : Type} (u : SplayIntTree α) (typ opts : Int)
    (hnil : u._root = .nil) :
    splay_int_dfs u typ opts = none ∧ splay_int_bfs u typ opts = none := by
  constructor
  · by_cases h0 : typ ≤ 0 ∨ opts ≤ 0 <;> simp [splay_int_dfs, h0, hnil]
  · simp [splay_int_bfs, hnil]

theorem dfs_eval {α : Type} (t : SplayIntTree α) (l : STree α) (key : Int)
    (d : α) (r : STree α) (hroot : t._root = .node l key d r)
    (typ opts : Int) (m : Nat) (h0 : ¬ (typ ≤ 0 ∨ opts ≤ 0))
    (hm : travMode opts = some m) :
    splay_int_dfs t typ opts =
      (if hasFlag typ 32 then some (travProject m (entriesPre t._root))
       else if hasFlag typ 64 then some (travProject m (entriesIn t._root))
       else if hasFlag typ 128 then some (travProject m (entriesPost t._root))
       else none) := by
  simp only [splay_int_dfs, hroot, if_neg h0, hm]

theorem bfs_eval {α : Type} (t : SplayIntTree α) (l : STree α) (key : Int)
    (d : α) (r : STree α) (hroot : t._root = .node l key d r)
    (typ opts : Int) (m : Nat)
    (hcond : ¬ (typ ≤ 0 ∨ opts ≤ 0 ∨
      (¬ hasFlag typ 256 ∧ ¬ hasFlag typ 512) ∨
      (¬ hasFlag opts 8 ∧ ¬ hasFlag opts 4 ∧ ¬ hasFlag opts 16)))
    (hm : travMode opts = some m) :
    splay_int_bfs t typ opts =
      some (travProject m
        (bfsRun (hasFlag typ 256) t.nodes_count [t._root])) := by
  simp only [splay_int_bfs, hroot, if_neg hcond, hm]

theorem bfs_run_perm {α : Type} (t : SplayIntTree α) (hne : t._root ≠ .nil)
    (hcnt : t.nodes_count = sizeT t._root) (lf : Bool) :
    (bfsRun lf t.nodes_count [t._root]).Perm (entriesIn t._root) := by
  have hq : STree.nil ∉ [t._root] := by
    intro h
    exact hne (List.mem_singleton.mp h).symm
  have hn : queueSize [t._root] = t.nodes_count := by
    simp [queueSize, hcnt]
  have hs := bfsRun_spec lf t.nodes_count [t._root] hq hn
  refine Multiset.coe_eq_coe.mp ?_
  rw [hs]
  simp [queueEntries]

theorem trav_ok_out {α : Type} (t : SplayIntTree α)
    (hcnt : t.nodes_count = sizeT t._root) (res : Option (TravOut α))
    (m : Nat) (es : List (Int × α)) (heq : res = some (travProject m es))
    (hperm : es.Perm (entriesIn t._root)) :
    ∃ out, res = some out ∧ travLen out = t.nodes_count ∧
      travOK t._root out := by
  obtain ⟨h1, h2⟩ := trav_project_ok t._root es m hperm
  exact ⟨_, heq, by rw [h1, hcnt], h2⟩

theorem dfs_eval_nomode {α : Type} (t : SplayIntTree α) (l : STree α)
    (key : Int) (d : α) (r : STree α) (hroot : t._root = .node l key d r)
    (typ opts : Int) (h0 : ¬ (typ ≤ 0 ∨ opts ≤ 0))
    (hm : travMode opts = none) : splay_int_dfs t typ opts = none := by
  simp only [splay_int_dfs, hroot, if_neg h0, hm]

theorem bfs_eval_guard {α : Type} (t : SplayIntTree α) (l : STree α)
    (key : Int) (d : α) (r : STree α) (hroot : t._root = .node l key d r)
    (typ opts : Int)
    (h : typ ≤ 0 ∨ opts ≤ 0 ∨ (¬ hasFlag typ 256 ∧ ¬ hasFlag typ 512) ∨
      (¬ hasFlag opts 8 ∧ ¬ hasFlag opts 4 ∧ ¬ hasFlag opts 16)) :
    splay_int_bfs t typ opts = none := by
  simp only [splay_int_bfs, hroot, if_pos h]

theorem travMode_isSome (opts : Int)
    (h : ¬ (¬ hasFlag opts 8 = true ∧ ¬ hasFlag opts 4 = true ∧
      ¬ hasFlag opts 16 = true)) :
    ∃ m, travMode opts = some m := by
  by_cases h4 : hasFlag opts 4 = true
  · exact ⟨4, by simp [travMode, h4]⟩
  · by_cases h8 : hasFlag opts 8 = true
    · exact ⟨8, by simp [travMode, h4, h8]⟩
    · by_cases h16 : hasFlag opts 16 = true
      · exact ⟨16, by simp [travMode, h4, h8, h16]⟩
      · exact absurd ⟨h8, h4, h16⟩ h

theorem dfs_mode_priority {α : Type} (t : SplayIntTree α)
    (typ opts opts2 : Int) (ho : 0 < opts) (ho2 : 0 < opts2)
    (hm : travMode opts = travMode opts2) :
    splay_int_dfs t typ opts = splay_int_dfs t typ opts2 := by
  by_cases h0 : typ ≤ 0
  · simp [splay_int_dfs, h0]
  · cases hroot : t._root with
    | nil =>
      rw [(trav_empty t typ opts hroot).1, (trav_empty t typ opts2 hroot).1]
    | node l key d r =>
      cases hm2 : travMode opts2 with
      | none =>
        rw [dfs_eval_nomode t l key d r hroot typ opts (by omega)
            (hm.trans hm2),
          dfs_eval_nomode t l key d r hroot typ opts2 (by omega) hm2]
      | some m =>
        rw [dfs_eval t l key d r hroot typ opts m (by omega) (hm.trans hm2),
          dfs_eval t l key d r hroot typ opts2 m (by omega) hm2]

theorem bfs_mode_priority {α : Type} (t : SplayIntTree α)
    (typ opts opts2 : Int) (ho : 0 < opts) (ho2 : 0 < opts2)
    (hm : travMode opts = travMode opts2)
    (hc : ¬ (¬ hasFlag opts 8 = true ∧ ¬ hasFlag opts 4 = true ∧
      ¬ hasFlag opts 16 = true))
    (hc2 : ¬ (¬ hasFlag opts2 8 = true ∧ ¬ hasFlag opts2 4 = true ∧
      ¬ hasFlag opts2 16 = true)) :
    splay_int_bfs t typ opts = splay_int_bfs t typ opts2 := by
  cases hroot : t._root with
  | nil => simp [splay_int_bfs, hroot]
  | node l key d r =>
    by_cases ht : typ ≤ 0 ∨
      (¬ hasFlag typ 256 = true ∧ ¬ hasFlag typ 512 = true)
    · rcases ht with ht | ht
      · rw [bfs_eval_guard t l key d r hroot typ opts (Or.inl ht),
          bfs_eval_guard t l key d r hroot typ opts2 (Or.inl ht)]
      · rw [bfs_eval_guard t l key d r hroot typ opts
            (Or.inr (Or.inr (Or.inl ht))),
          bfs_eval_guard t l key d r hroot typ opts2
            (Or.inr (Or.inr (Or.inl ht)))]
    · obtain ⟨m, hmm⟩ := travMode_isSome opts hc
      have hmm2 : travMode opts2 = some m := hm.symm.trans hmm
      rw [bfs_eval t l key d r hroot typ opts m ?g1 hmm,
        bfs_eval t l key d r hroot typ opts2 m ?g2 hmm2]
      case g1 =>
        rintro (h' | h' | h' | h')
        · exact ht (Or.inl h')
        · omega
        · exact ht (Or.inr h')
        · exact hc h'
      case g2 =>
        rintro (h' | h' | h' | h')
        · exact ht (Or.inl h')
        · omega
        · exact ht (Or.inr h')
        · exact hc2 h'

theorem search_same_result {α : Type} (t : SplayIntTree α)
    (k opts opts2 : Int) (ho : ¬ opts ≤ 0) (ho2 : ¬ opts2 ≤ 0)
    (h2eq : hasFlag opts 2 = hasFlag opts2 2)
    (hval : ∀ e : Int × α,
      (if hasFlag opts 4 then SRes.payload e.2
       else if hasFlag opts 16 then SRes.nodeRef e.1 e.2
       else SRes.null) =
      (if hasFlag opts2 4 then SRes.payload e.2
       else if hasFlag opts2 16 then SRes.nodeRef e.1 e.2
       else SRes.null)) :
    splay_int_search t k opts = splay_int_search t k opts2 := by
  cases hp : _spli_search_node t._root k with
  | none => rw [search_notfound t k opts hp, search_notfound t k opts2 hp]
  | some p =>
    obtain ⟨e, he, -⟩ := search_sound t._root k p hp
    by_cases hspl : hasFlag opts 2 = true
    · rw [search_splay_found t k opts p e ho hspl hp he,
        search_splay_found t k opts2 p e ho2 (h2eq ▸ hspl) hp he, hval e]
    · have hspl2 : hasFlag opts 2 = false := by simpa using hspl
      rw [search_nosplay_found t k opts p e ho hspl2 hp he,
        search_nosplay_found t k opts2 p e ho2 (h2eq ▸ hspl2) hp he, hval e]

/-! ### Claim C8 -/

/-- C8: a `splay_int_search` call without the `SEARCH_SPLAY` bit never
writes any field of the tree or of any node — root, node counter and all
node contents and links are identical before and after the call, found
or not — and consequently two such searches compose as in a
single-threaded execution. -/
theorem C8_readonly_search {α : Type} (t : SplayIntTree α) (k k2 opts : Int)
    (h : hasFlag opts 2 = false) :
    (splay_int_search t k opts).1 = t ∧
      splay_int_search ((splay_int_search t k opts).1) k2 opts =
        splay_int_search t k2 opts := by
  have h1 := search_no_splay_frame t k opts h
  exact ⟨h1, by rw [h1]⟩

/-- Witness for C8 at a concrete tree, probe keys and options. -/
theorem C8_readonly_search_witness :
    hasFlag 4 2 = false ∧
    ((splay_int_search exTreeTwo 3 4).1 = exTreeTwo ∧
      splay_int_search ((splay_int_search exTreeTwo 3 4).1) 5 4 =
        splay_int_search exTreeTwo 5 4) :=
  ⟨by decide, C8_readonly_search exTreeTwo 3 5 4 (by decide)⟩

/-! ### Claim C9 -/

/-- C9 as stated is false: with full-range `int` keys the comparator
`curr->_key - key` wraps, and a key stored in the tree can be missed.
`exTreeWrap` is built by three inserts, stores key `0`, and
`splay_int_search(tree, 0, SEARCH_DATA)` returns `NULL` instead of the
bound payload. -/
theorem C9_search_counterexample :
    (0 : Int) ∈ keysIn exTreeWrap._root ∧
      splay_int_search exTreeWrap 0 4 = (exTreeWrap, SRes.null) := by
  constructor <;> decide

/-- C9 (amended): on a node-wise sorted tree whose keys — and the probe
key — lie in a half-range where no comparator subtraction overflows,
`splay_int_search(tree, k, SEARCH_DATA)` returns the payload bound to a
stored `k` and the `NULL` indicator for an absent `k`. -/
theorem C9_search_amended {α : Type} (t : SplayIntTree α) (k : Int)
    (hss : SortedSafe t) (hk : SafeRange k) : SearchSpec t k := by
  constructor
  · intro hmem
    obtain ⟨p, v, hp, hAt⟩ := search_complete t._root k hss.1 hk hss.2 hmem
    refine ⟨v, ?_, keyAt_mem _ _ _ hAt⟩
    rw [search_nosplay_found t k 4 p (k, v) (by norm_num) (by decide) hp hAt]
    simp [hasFlag]
  · intro hmem
    exact search_notfound t k 4 (search_absent t._root k hss.1 hk hss.2 hmem)

/-- Witness for C9 (amended) at a concrete two-key tree. -/
theorem C9_search_amended_witness :
    SortedSafe exTreeTwo ∧ SafeRange 5 ∧ SearchSpec exTreeTwo 5 :=
  ⟨by decide, by decide, C9_search_amended exTreeTwo 5 (by decide) (by decide)⟩

/-! ### Claim C10 -/

/-- C10 as stated — quantifying over every tree and every present key —
is false: in `exTreeWrap` the key `0` is present, but
`splay_int_search(tree, 0, SEARCH_SPLAY)` leaves the tree completely
unchanged (the wrapped comparator makes the descent miss `0`, so no
node is splayed and the root key stays `-1610612736`), contradicting
the claimed "fully splays the found node to the root".  Only the
`NULL` return value matches the claim. -/
theorem C10_splay_only_counterexample :
    (0 : Int) ∈ keysIn exTreeWrap._root ∧
      splay_int_search exTreeWrap 0 2 = (exTreeWrap, SRes.null) ∧
      rootEntry exTreeWrap._root = some (-1610612736, 2) :=
  ⟨by decide, by decide, by decide⟩

/-- C10 (amended): on a node-wise sorted tree whose keys and the probe
key lie in the overflow-safe half-range (so that a present key is in
fact located by the descent), searching an existing key with only the
`SEARCH_SPLAY` bit set (neither `SEARCH_DATA` nor `SEARCH_NODES`) fully
splays the found node to the root — the tree is mutated, the new root
carries key `k` — yet the call returns `NULL`, exactly the value
returned for an absent key, so the caller cannot distinguish the two
outcomes. -/
theorem C10_splay_only_null {α : Type} (t : SplayIntTree α) (k : Int)
    (hss : SortedSafe t) (hk : SafeRange k) (hmem : k ∈ keysIn t._root) :
    (splay_int_search t k 2).2 = SRes.null ∧
    (∃ v, rootEntry ((splay_int_search t k 2).1)._root = some (k, v)) ∧
    (∀ (u : SplayIntTree α) (k2 : Int), _spli_search_node u._root k2 = none →
      splay_int_search u k2 2 = (u, SRes.null)) := by
  obtain ⟨p, v, hp, hAt⟩ := search_complete t._root k hss.1 hk hss.2 hmem
  have heval := search_splay_found t k 2 p (k, v) (by norm_num) (by decide)
    hp hAt
  refine ⟨?_, ⟨v, ?_⟩, fun u k2 hnone => search_notfound u k2 2 hnone⟩
  · rw [heval]
    rfl
  · rw [heval]
    exact splayFull_rootEntry _ _ _ hAt

/-- Witness for C10 at a concrete two-key tree. -/
theorem C10_splay_only_null_witness :
    SortedSafe exTreeTwo ∧ SafeRange 5 ∧ (5 : Int) ∈ keysIn exTreeTwo._root ∧
    ((splay_int_search exTreeTwo 5 2).2 = SRes.null ∧
      (∃ v, rootEntry ((splay_int_search exTreeTwo 5 2).1)._root =
        some (5, v)) ∧
      (∀ (u : SplayIntTree Nat) (k2 : Int),
        _spli_search_node u._root k2 = none →
        splay_int_search u k2 2 = (u, SRes.null))) :=
  ⟨by decide, by decide, by decide,
    C10_splay_only_null exTreeTwo 5 (by decide) (by decide) (by decide)⟩

/-! ### Claim C2 -/

/-- C2 as stated is false: in `exTreeWrap` (built by three inserts over
full-range `int` keys) the key `0` is present, yet
`splay_int_search(tree, 0, SEARCH_SPLAY|SEARCH_DATA)` leaves the tree
untouched — the wrapped comparator steers the descent away from `0`, the
search misses, and the root key stays `-1610612736` instead of becoming
`0`. -/
theorem C2_splay_to_root_counterexample :
    (0 : Int) ∈ keysIn exTreeWrap._root ∧
      (splay_int_search exTreeWrap 0 6).1 = exTreeWrap ∧
      rootEntry exTreeWrap._root = some (-1610612736, 2) :=
  ⟨by decide, by decide, by decide⟩

/-- C2 (amended): after a successful `splay_int_insert(tree, k, v)` the
root holds exactly `(k, v)` — this half is unconditional; and on a
node-wise sorted tree whose keys and probe key lie in the overflow-safe
half-range, `splay_int_search` with the `SEARCH_SPLAY` bit on a present
key `k` makes the root's key `k`. -/
theorem C2_splay_to_root_amended {α : Type} (t : SplayIntTree α) (k : Int)
    (v : α) (opts : Int) :
    (t.nodes_count ≠ t.max_nodes →
      rootEntry ((splay_int_insert t k v).1)._root = some (k, v) ∧
        (splay_int_insert t k v).2 ≠ 0) ∧
    (SortedSafe t → SafeRange k → k ∈ keysIn t._root → 0 < opts →
      hasFlag opts 2 = true →
      ∃ v', rootEntry ((splay_int_search t k opts).1)._root = some (k, v')) := by
  constructor
  · intro hcap
    obtain ⟨hroot, hret, -, -, -⟩ := insert_spec t k v hcap
    exact ⟨hroot, by rw [hret]; omega⟩
  · intro hss hk hmem ho hspl
    obtain ⟨p, v', hp, hAt⟩ := search_complete t._root k hss.1 hk hss.2 hmem
    refine ⟨v', ?_⟩
    rw [search_splay_root t k opts p (by omega) hspl hp]
    exact splayFull_rootEntry _ _ _ hAt

/-- Witness for C2 (amended): the insert half is exercised on
`exTreeWrap`, a full-range, comparison-wrapped tree, inserting the
absent key `7`; the search half on the sorted, in-range `exTreeTwo`. -/
theorem C2_splay_to_root_witness :
    (exTreeWrap.nodes_count ≠ exTreeWrap.max_nodes ∧
      (rootEntry ((splay_int_insert exTreeWrap 7 9).1)._root = some (7, 9) ∧
        (splay_int_insert exTreeWrap 7 9).2 ≠ 0)) ∧
    (SortedSafe exTreeTwo ∧ SafeRange 5 ∧ (5 : Int) ∈ keysIn exTreeTwo._root ∧
      (0 : Int) < 2 ∧ hasFlag 2 2 = true ∧
      ∃ v', rootEntry ((splay_int_search exTreeTwo 5 2).1)._root =
        some (5, v')) :=
  ⟨⟨by decide, (C2_splay_to_root_amended exTreeWrap 7 9 2).1 (by decide)⟩,
   ⟨by decide, by decide, by decide, by decide, by decide,
    (C2_splay_to_root_amended exTreeTwo 5 9 2).2 (by decide) (by decide)
      (by decide) (by decide) (by decide)⟩⟩

/-! ### Claim C3 -/

/-- C3 as stated is false: in `exTreeWrap` the key `0` is present, yet
`splay_int_delete(tree, 0, 0)` misses it (the wrapped comparator steers
the descent to the wrong side), returns `0` and leaves the tree
unchanged — instead of returning `1` and removing one occurrence. -/
theorem C3_delete_counterexample :
    (0 : Int) ∈ keysIn exTreeWrap._root ∧
      splay_int_delete exTreeWrap 0 0 = (exTreeWrap, 0) := by
  constructor <;> decide

/-- C3 (amended): on a node-wise sorted tree whose keys and the probe
key lie in the overflow-safe half-range, deletion of a present key
returns `1` and removes exactly one occurrence of `k` from the entry
multiset, the new root being given by the join rule on the splayed-out
target's subtrees (empty side ⇒ other side's root; otherwise the
maximum-key node of the left subtree with the right subtree as its right
son); deletion of an absent key is a no-op returning `0`. -/
theorem C3_delete_amended {α : Type} (t : SplayIntTree α) (k opts : Int)
    (hss : SortedSafe t) (hk : SafeRange k) (ho : 0 ≤ opts) :
    DeleteSpec t k opts := by
  have hole : ¬ opts < 0 := by omega
  constructor
  · intro hmem
    obtain ⟨p, v, hp, hAt⟩ := search_complete t._root k hss.1 hk hss.2 hmem
    obtain ⟨e, l, r, he, hw, hshape, hres⟩ := delete_found t k opts hole p hp
    have hev : e = (k, v) := Option.some.inj (he.symm.trans hAt)
    subst hev
    have h1 : entriesIn t._root = entriesIn l ++ (k, v) :: entriesIn r := by
      have h2 := splayFull_entriesIn t._root p
      rw [hshape] at h2
      simpa [entriesIn] using h2.symm
    have hkeys : keysIn t._root = keysIn l ++ k :: keysIn r := by
      have h2 := splayFull_keysIn t._root p
      rw [hshape] at h2
      simpa [keysIn_node] using h2.symm
    refine ⟨by rw [hres], ⟨v, ?_⟩, p, l, r, v, hp, hshape, by rw [hres],
      ?_, ?_, ?_⟩
    · rw [hres, h1]
      show (k, v) ::ₘ _ = _
      simp only [join_entries]
      rw [Multiset.cons_coe]
      exact Multiset.coe_eq_coe.mpr List.perm_middle.symm
    · intro hl
      subst hl
      rw [hres]
      exact join_nil_left r
    · intro hr
      subst hr
      rw [hres]
      exact join_nil_right l
    · intro hl hr
      cases l with
      | nil => exact absurd rfl hl
      | node la lk lv lr =>
        cases r with
        | nil => exact absurd rfl hr
        | node ra rk rv rr =>
          obtain ⟨a, mk, mv, hj, he2⟩ := join_spec la lk lv lr ra rk rv rr
          have hka : keysIn (STree.node la lk lv lr) = keysIn a ++ [mk] := by
            have h3 := congrArg (List.map Prod.fst) he2
            simpa [keysIn] using h3
          refine ⟨a, mk, mv, by rw [hres]; exact hj, ?_, ?_⟩
          · rw [hka]
            simp
          · have hsor : List.Sorted (· ≤ ·) (keysIn t._root) :=
              (nodeSorted_iff_sorted _).mp hss.1
            rw [hkeys] at hsor
            have hsl : List.Sorted (· ≤ ·)
                (keysIn (STree.node la lk lv lr)) :=
              List.Pairwise.sublist (List.sublist_append_left _ _) hsor
            rw [hka] at hsl
            intro x hx
            rw [hka] at hx
            rcases List.mem_append.mp hx with h' | h'
            · exact (List.pairwise_append.mp hsl).2.2 x h' mk (by simp)
            · rw [List.mem_singleton.mp h']
  · intro hmem
    rw [delete_not_found t k opts
      (search_absent t._root k hss.1 hk hss.2 hmem)]

/-- Witness for C3 (amended) at a concrete two-key tree. -/
theorem C3_delete_witness :
    SortedSafe exTreeTwo ∧ SafeRange 5 ∧ (0 : Int) ≤ 0 ∧
      DeleteSpec exTreeTwo 5 0 :=
  ⟨by decide, by decide, by decide,
    C3_delete_amended exTreeTwo 5 0 (by decide) (by decide) (by decide)⟩

/-! ### Claim C1 -/

/-- C1 as stated is false over full-range `int` keys.  `exTreeOverflow`,
built by `insert INT_MAX; insert -2`, has the decreasing in-order key
sequence `[2147483647, -2]` because the comparator difference wraps; and
`exTreeDup`, built by inserting key `5` twice, violates the claim's
strict "right subtree > key" condition: the zig rotation of the splay
moves the older `5` into the right subtree of the new root `5`. -/
theorem C1_bst_invariant_counterexample :
    ¬ List.Sorted (· ≤ ·) (keysIn exTreeOverflow._root) ∧
      specStrictBST exTreeDup._root = false := by
  constructor <;> decide

/-- C1 (amended): for every tree obtained from `create_splay_int_tree`
by any sequence of `splay_int_insert` / `splay_int_delete` calls whose
inserted keys lie in the overflow-safe half-range `[-2^30, 2^30)`, the
in-order key sequence is non-decreasing; equivalently every node's left
subtree holds keys `≤` its key and its right subtree keys `≥` its key
(non-strict, because splaying can move a duplicate into a right
subtree). -/
theorem C1_bst_invariant_amended {α : Type} (ops : List (Op α))
    (h : ∀ op ∈ ops, OpSafe op) :
    List.Sorted (· ≤ ·) (keysIn (runOps ops)._root) ∧
      NodeSorted (runOps ops)._root := by
  have hs := runOps_sortedSafe ops h
  exact ⟨(nodeSorted_iff_sorted _).mp hs.1, hs.1⟩

/-- Witness for C1 (amended) on a concrete operation sequence. -/
theorem C1_bst_invariant_witness :
    (∀ op ∈ ([Op.ins 5 0, Op.ins 3 1, Op.ins 8 2, Op.del 5 0] :
        List (Op Nat)), OpSafe op) ∧
      (List.Sorted (· ≤ ·) (keysIn (runOps ([Op.ins 5 0, Op.ins 3 1,
          Op.ins 8 2, Op.del 5 0] : List (Op Nat)))._root) ∧
        NodeSorted (runOps ([Op.ins 5 0, Op.ins 3 1, Op.ins 8 2,
          Op.del 5 0] : List (Op Nat)))._root) :=
  ⟨by decide, C1_bst_invariant_amended _ (by decide)⟩

/-! ### Claim C4 -/

/-- C4: starting from a freshly created tree, after any sequence of
operations the node counter equals the number of successful inserts
minus the number of successful deletes; and an insert that fails (full
tree, return 0) or a delete that fails (key not found or bad options,
return 0) leaves the tree — in particular its node counter —
unchanged. -/
theorem C4_size_accounting {α : Type} (ops : List (Op α)) :
    (runCounts ops).1.nodes_count + (runCounts ops).2.2 =
        (runCounts ops).2.1 ∧
      (∀ (t : SplayIntTree α) (k : Int) (v : α),
        (splay_int_insert t k v).2 = 0 → (splay_int_insert t k v).1 = t) ∧
      (∀ (t : SplayIntTree α) (k opts : Int),
        (splay_int_delete t k opts).2 = 0 →
          (splay_int_delete t k opts).1 = t) :=
  ⟨(runCounts_inv ops).2, insert_fail_frame, delete_fail_frame⟩

/-- Witness for C4 on a concrete operation sequence (two successful
inserts, one successful delete, one failed delete) and a concrete
failed delete. -/
theorem C4_size_accounting_witness :
    ((runCounts ([Op.ins 1 0, Op.ins 2 1, Op.del 1 0, Op.del 7 0] :
        List (Op Nat))).1.nodes_count +
      (runCounts ([Op.ins 1 0, Op.ins 2 1, Op.del 1 0, Op.del 7 0] :
        List (Op Nat))).2.2 =
      (runCounts ([Op.ins 1 0, Op.ins 2 1, Op.del 1 0, Op.del 7 0] :
        List (Op Nat))).2.1) ∧
    (splay_int_delete exTreeTwo 99 0).2 = 0 ∧
    (splay_int_delete exTreeTwo 99 0).1 = exTreeTwo :=
  ⟨(C4_size_accounting _).1, by decide,
    (C4_size_accounting ([] : List (Op Nat))).2.2 exTreeTwo 99 0 (by decide)⟩

/-! ### Claim C5 -/

/-- C5 describes the intended behaviour, but `splay_int_insert` never
checks `_spli_create_node` for `NULL` (unlike `create_splay_int_tree`,
which does check its own `malloc`): when the node allocation fails on a
one-node tree the insert loops forever in `while (tree->_root != curr)`
with `curr == NULL` (modelled as `none`), and on an empty tree it stores
`NULL` into `_root` yet still increments `nodes_count` to 1 — instead of
returning the failure sentinel `0` with the tree untouched. -/
theorem C5_alloc_failure_code_bug :
    splay_int_insert_nullNode (α := Nat)
        ⟨.node .nil 1 0 .nil, 1, ULONG_MAX⟩ = none ∧
      splay_int_insert_nullNode (α := Nat) ⟨.nil, 0, ULONG_MAX⟩ =
        some (⟨.nil, 1, ULONG_MAX⟩, 1) := by
  constructor <;> decide

/-! ### Claim C6 -/

/-- C6 as stated is false: passing both `SEARCH_DATA` and `SEARCH_KEYS`
(`opts = 0xC`) to `splay_int_dfs` is not rejected — the `else if` chain
silently picks `SEARCH_DATA` and returns a data buffer; likewise
`splay_int_search` with `SEARCH_DATA|SEARCH_NODES` (`0x14`) returns the
payload rather than the `NULL` error sentinel. -/
theorem C6_mode_bits_counterexample :
    splay_int_dfs exTreeOne 32 12 = some (TravOut.data [7]) ∧
      splay_int_search exTreeOne 1 20 = (exTreeOne, SRes.payload 7) := by
  constructor <;> decide

/-- C6 (amended): the calls do not detect ambiguous mode combinations.
An option word with none of `SEARCH_DATA`/`SEARCH_KEYS`/`SEARCH_NODES`
makes the traversals return `NULL` and a search return the `NULL`
sentinel (though a search with the splay bit still splays a found
node); otherwise the first set bit in a fixed priority order wins —
`SEARCH_DATA` over `SEARCH_KEYS` over `SEARCH_NODES`, `DFS_PRE_ORDER`
over `DFS_IN_ORDER` over `DFS_POST_ORDER`, `BFS_LEFT_FIRST` over
`BFS_RIGHT_FIRST` — and the call behaves exactly as if only the
winning bit (plus, for a search, its `SEARCH_SPLAY` bit) had been
passed. -/
theorem C6_mode_bits_amended {α : Type} (t : SplayIntTree α)
    (typ opts k : Int) : ModeBitsSpec t typ opts k := by
  refine ⟨?noMode, ?dataPri, ?keysPri, ?nodesPri, ?pre, ?ino, ?post,
    ?left, ?right⟩
  case noMode =>
    intro h4 h8 h16
    refine ⟨?_, ?_, ?_⟩
    · by_cases h0 : typ ≤ 0 ∨ opts ≤ 0
      · simp [splay_int_dfs, h0]
      · cases hroot : t._root with
        | nil => simp [splay_int_dfs, h0, hroot]
        | node l key d r =>
          simp [splay_int_dfs, h0, hroot, travMode, h4, h8, h16]
    · cases hroot : t._root with
      | nil => simp [splay_int_bfs, hroot]
      | node l key d r => simp [splay_int_bfs, hroot, h4, h8, h16]
    · by_cases ho : opts ≤ 0
      · simp [splay_int_search, ho]
      · cases hp : _spli_search_node t._root k with
        | none => rw [search_notfound t k opts hp]
        | some p =>
          obtain ⟨e, he, -⟩ := search_sound t._root k p hp
          by_cases hspl : hasFlag opts 2 = true
          · rw [search_splay_found t k opts p e ho hspl hp he]
            simp [h4, h16]
          · rw [search_nosplay_found t k opts p e ho
              (by simpa using hspl) hp he]
            simp [h4, h16]
  case dataPri =>
    intro h4
    have ho : 0 < opts := hasFlag_pos opts 4 h4
    have hm : travMode opts = travMode 4 := by
      rw [show travMode 4 = some 4 from rfl]
      simp [travMode, h4]
    refine ⟨dfs_mode_priority t typ opts 4 ho (by norm_num) hm,
      bfs_mode_priority t typ opts 4 ho (by norm_num) hm
        (fun h2 => h2.2.1 h4) (fun h2 => h2.2.1 (by decide)), ?_⟩
    by_cases hspl : hasFlag opts 2 = true
    · rw [if_pos hspl]
      refine search_same_result t k opts 6 (by omega) (by norm_num) ?_ ?_
      · rw [hspl]; decide
      · intro e
        rw [if_pos h4, if_pos (show hasFlag (6 : Int) 4 = true by decide)]
    · rw [if_neg hspl]
      refine search_same_result t k opts 4 (by omega) (by norm_num) ?_ ?_
      · rw [show hasFlag opts 2 = false by simpa using hspl]; decide
      · intro e
        rw [if_pos h4, if_pos (show hasFlag (4 : Int) 4 = true by decide)]
  case keysPri =>
    intro h4 h8
    have ho : 0 < opts := hasFlag_pos opts 8 h8
    have hm : travMode opts = travMode 8 := by
      rw [show travMode 8 = some 8 from rfl]
      simp [travMode, h4, h8]
    exact ⟨dfs_mode_priority t typ opts 8 ho (by norm_num) hm,
      bfs_mode_priority t typ opts 8 ho (by norm_num) hm
        (fun h2 => h2.1 h8) (fun h2 => h2.1 (by decide))⟩
  case nodesPri =>
    intro h4 h16
    have ho : 0 < opts := hasFlag_pos opts 16 h16
    by_cases hspl : hasFlag opts 2 = true
    · rw [if_pos hspl]
      refine search_same_result t k opts 18 (by omega) (by norm_num) ?_ ?_
      · rw [hspl]; decide
      · intro e
        rw [if_neg (by simp [h4]),
          if_neg (show ¬ hasFlag (18 : Int) 4 = true by decide),
          if_pos h16, if_pos (show hasFlag (18 : Int) 16 = true by decide)]
    · rw [if_neg hspl]
      refine search_same_result t k opts 16 (by omega) (by norm_num) ?_ ?_
      · rw [show hasFlag opts 2 = false by simpa using hspl]; decide
      · intro e
        rw [if_neg (by simp [h4]),
          if_neg (show ¬ hasFlag (16 : Int) 4 = true by decide),
          if_pos h16, if_pos (show hasFlag (16 : Int) 16 = true by decide)]
  case pre =>
    intro h32
    have ht : 0 < typ := hasFlag_pos typ 32 h32
    by_cases ho : opts ≤ 0
    · simp [splay_int_dfs, ho]
    · cases hroot : t._root with
      | nil =>
        rw [(trav_empty t typ opts hroot).1, (trav_empty t 32 opts hroot).1]
      | node l key d r =>
        cases hm : travMode opts with
        | none =>
          rw [dfs_eval_nomode t l key d r hroot typ opts (by omega) hm,
            dfs_eval_nomode t l key d r hroot 32 opts (by omega) hm]
        | some m =>
          rw [dfs_eval t l key d r hroot typ opts m (by omega) hm,
            dfs_eval t l key d r hroot 32 opts m (by omega) hm,
            if_pos h32, if_pos (show hasFlag (32 : Int) 32 = true by decide)]
  case ino =>
    intro h32 h64
    have ht : 0 < typ := hasFlag_pos typ 64 h64
    by_cases ho : opts ≤ 0
    · simp [splay_int_dfs, ho]
    · cases hroot : t._root with
      | nil =>
        rw [(trav_empty t typ opts hroot).1, (trav_empty t 64 opts hroot).1]
      | node l key d r =>
        cases hm : travMode opts with
        | none =>
          rw [dfs_eval_nomode t l key d r hroot typ opts (by omega) hm,
            dfs_eval_nomode t l key d r hroot 64 opts (by omega) hm]
        | some m =>
          rw [dfs_eval t l key d r hroot typ opts m (by omega) hm,
            dfs_eval t l key d r hroot 64 opts m (by omega) hm,
            if_neg (by simp [h32]),
            if_neg (show ¬ hasFlag (64 : Int) 32 = true by decide),
            if_pos h64, if_pos (show hasFlag (64 : Int) 64 = true by decide)]
  case post =>
    intro h32 h64 h128
    have ht : 0 < typ := hasFlag_pos typ 128 h128
    by_cases ho : opts ≤ 0
    · simp [splay_int_dfs, ho]
    · cases hroot : t._root with
      | nil =>
        rw [(trav_empty t typ opts hroot).1, (trav_empty t 128 opts hroot).1]
      | node l key d r =>
        cases hm : travMode opts with
        | none =>
          rw [dfs_eval_nomode t l key d r hroot typ opts (by omega) hm,
            dfs_eval_nomode t l key d r hroot 128 opts (by omega) hm]
        | some m =>
          rw [dfs_eval t l key d r hroot typ opts m (by omega) hm,
            dfs_eval t l key d r hroot 128 opts m (by omega) hm,
            if_neg (by simp [h32]),
            if_neg (show ¬ hasFlag (128 : Int) 32 = true by decide),
            if_neg (by simp [h64]),
            if_neg (show ¬ hasFlag (128 : Int) 64 = true by decide),
            if_pos h128,
            if_pos (show hasFlag (128 : Int) 128 = true by decide)]
  case left =>
    intro h256
    have ht : 0 < typ := hasFlag_pos typ 256 h256
    cases hroot : t._root with
    | nil => simp [splay_int_bfs, hroot]
    | node l key d r =>
      by_cases hmc : ¬ hasFlag opts 8 = true ∧ ¬ hasFlag opts 4 = true ∧
        ¬ hasFlag opts 16 = true
      · rw [bfs_eval_guard t l key d r hroot typ opts
            (Or.inr (Or.inr (Or.inr hmc))),
          bfs_eval_guard t l key d r hroot 256 opts
            (Or.inr (Or.inr (Or.inr hmc)))]
      · by_cases ho : opts ≤ 0
        · rw [bfs_eval_guard t l key d r hroot typ opts (Or.inr (Or.inl ho)),
            bfs_eval_guard t l key d r hroot 256 opts (Or.inr (Or.inl ho))]
        · obtain ⟨m, hm⟩ := travMode_isSome opts hmc
          rw [bfs_eval t l key d r hroot typ opts m ?gL hm,
            bfs_eval t l key d r hroot 256 opts m ?gR hm, h256,
            show hasFlag (256 : Int) 256 = true from by decide]
          case gL =>
            rintro (h2 | h2 | h2 | h2)
            · omega
            · exact ho h2
            · exact h2.1 h256
            · exact hmc h2
          case gR =>
            rintro (h2 | h2 | h2 | h2)
            · norm_num at h2
            · exact ho h2
            · exact h2.1 (by decide)
            · exact hmc h2
  case right =>
    intro h256 h512
    have ht : 0 < typ := hasFlag_pos typ 512 h512
    cases hroot : t._root with
    | nil => simp [splay_int_bfs, hroot]
    | node l key d r =>
      by_cases hmc : ¬ hasFlag opts 8 = true ∧ ¬ hasFlag opts 4 = true ∧
        ¬ hasFlag opts 16 = true
      · rw [bfs_eval_guard t l key d r hroot typ opts
            (Or.inr (Or.inr (Or.inr hmc))),
          bfs_eval_guard t l key d r hroot 512 opts
            (Or.inr (Or.inr (Or.inr hmc)))]
      · by_cases ho : opts ≤ 0
        · rw [bfs_eval_guard t l key d r hroot typ opts (Or.inr (Or.inl ho)),
            bfs_eval_guard t l key d r hroot 512 opts (Or.inr (Or.inl ho))]
        · obtain ⟨m, hm⟩ := travMode_isSome opts hmc
          rw [bfs_eval t l key d r hroot typ opts m ?gL2 hm,
            bfs_eval t l key d r hroot 512 opts m ?gR2 hm, h256,
            show hasFlag (512 : Int) 256 = false from by decide]
          case gL2 =>
            rintro (h2 | h2 | h2 | h2)
            · omega
            · exact ho h2
            · exact h2.2 h512
            · exact hmc h2
          case gR2 =>
            rintro (h2 | h2 | h2 | h2)
            · norm_num at h2
            · exact ho h2
            · exact h2.2 (by decide)
            · exact hmc h2

/-- Witness for C6 (amended) at a concrete tree, with both `DFS_PRE_ORDER`
and `DFS_IN_ORDER` set in the order word and both `SEARCH_DATA` and
`SEARCH_KEYS` set in the mode word. -/
theorem C6_mode_bits_witness : ModeBitsSpec exTreeOne 96 12 1 :=
  C6_mode_bits_amended exTreeOne 96 12 1

/-! ### Claim C7 -/

/-- C7: on every non-empty tree whose node counter matches its node
count, each depth-first traversal (pre-, in-, post-order) and each
breadth-first traversal (left- or right-first), in every single output
mode, returns a buffer of exactly `nodes_count` elements carrying
precisely the tree's multiset of keys / payloads / nodes; a tree with a
`NULL` root yields `NULL`, not an empty buffer. -/
theorem C7_traversal {α : Type} (t : SplayIntTree α) (typ opts : Int)
    (hroot : t._root ≠ .nil) (hcnt : t.nodes_count = sizeT t._root)
    (htyp : typ = 32 ∨ typ = 64 ∨ typ = 128)
    (hopts : opts = 4 ∨ opts = 8 ∨ opts = 16) :
    TraversalSpec t typ opts := by
  obtain ⟨l, key, d, r, hr⟩ :
      ∃ l key d r, t._root = STree.node l key d r := by
    cases hx : t._root with
    | nil => exact absurd hx hroot
    | node a b c e => exact ⟨a, b, c, e, rfl⟩
  have hbfs : ∀ btyp : Int, btyp = 256 ∨ btyp = 512 →
      ∃ out, splay_int_bfs t btyp opts = some out ∧
        travLen out = t.nodes_count ∧ travOK t._root out := by
    intro btyp hbt
    rcases hopts with rfl | rfl | rfl <;> rcases hbt with rfl | rfl <;>
      exact trav_ok_out t hcnt _ _ _
        (bfs_eval t l key d r hr _ _ _ (by decide) rfl)
        (bfs_run_perm t hroot hcnt _)
  refine ⟨?_, hbfs, fun u hnil => trav_empty u typ opts hnil⟩
  rcases hopts with rfl | rfl | rfl <;> rcases htyp with rfl | rfl | rfl
  · exact trav_ok_out t hcnt _ 4 _
      (by rw [dfs_eval t l key d r hr 32 4 4 (by norm_num) rfl]; rfl)
      (entriesPre_perm _)
  · exact trav_ok_out t hcnt _ 4 _
      (by rw [dfs_eval t l key d r hr 64 4 4 (by norm_num) rfl]; rfl)
      (List.Perm.refl _)
  · exact trav_ok_out t hcnt _ 4 _
      (by rw [dfs_eval t l key d r hr 128 4 4 (by norm_num) rfl]; rfl)
      (entriesPost_perm _)
  · exact trav_ok_out t hcnt _ 8 _
      (by rw [dfs_eval t l key d r hr 32 8 8 (by norm_num) rfl]; rfl)
      (entriesPre_perm _)
  · exact trav_ok_out t hcnt _ 8 _
      (by rw [dfs_eval t l key d r hr 64 8 8 (by norm_num) rfl]; rfl)
      (List.Perm.refl _)
  · exact trav_ok_out t hcnt _ 8 _
      (by rw [dfs_eval t l key d r hr 128 8 8 (by norm_num) rfl]; rfl)
      (entriesPost_perm _)
  · exact trav_ok_out t hcnt _ 16 _
      (by rw [dfs_eval t l key d r hr 32 16 16 (by norm_num) rfl]; rfl)
      (entriesPre_perm _)
  · exact trav_ok_out t hcnt _ 16 _
      (by rw [dfs_eval t l key d r hr 64 16 16 (by norm_num) rfl]; rfl)
      (List.Perm.refl _)
  · exact trav_ok_out t hcnt _ 16 _
      (by rw [dfs_eval t l key d r hr 128 16 16 (by norm_num) rfl]; rfl)
      (entriesPost_perm _)

/-- Witness for C7 at a concrete two-key tree, in-order, key mode. -/
theorem C7_traversal_witness :
    exTreeTwo._root ≠ .nil ∧
      exTreeTwo.nodes_count = sizeT exTreeTwo._root ∧
      ((64 : Int) = 32 ∨ (64 : Int) = 64 ∨ (64 : Int) = 128) ∧
      ((8 : Int) = 4 ∨ (8 : Int) = 8 ∨ (8 : Int) = 16) ∧
      TraversalSpec exTreeTwo 64 8 :=
  ⟨by decide, by decide, by decide, by decide,
    C7_traversal exTreeTwo 64 8 (by decide) (by decide) (by decide)
      (by decide)⟩

end SplayTreesC
